import Mathlib

/-!
# Verification of the `a_maze_ing` maze generation and solving engine

Shallow embedding of the core components of the `a_maze_ing` repository:
the bitmask wall model (`maze_files/maze_definitions.py`,
`maze_files/direction_definitions.py`, `maze_files/wall_operations.py`),
the stencil marker (`maze_files/forty_two_marking.py`), the
extra-connectivity pass (`maze_files/multiple_path_maze.py`), the BFS
shortest-path solver (`maze_files/bfs_shortest_path_solver.py`), the
validators (`validators.py`) and the path conversion
(`a_maze_ing.py::_coords_to_path`, `mazegen.py`).

Python machine integers are embedded as `Int` (coordinates, dimensions)
and `Nat` (wall masks, which stay in 0..15); Python `dict` becomes a
function into `Option`; raising `ValueError` becomes `Except String`.
-/

namespace AMazeIng

/-- A coordinate `(x, y)`: `x` indexes columns, `y` indexes rows. -/
abbrev Coord := Int × Int

/-! ## Direction table (`maze_files/direction_definitions.py`) -/

/-- The four direction letters `"N" | "E" | "S" | "W"`. -/
inductive Dir : Type
  | N | E | S | W
deriving DecidableEq, Repr

/-- `DIRECTIONS`: canonical order of directions used throughout the project. -/
def DIRECTIONS : List Dir := [Dir.N, Dir.E, Dir.S, Dir.W]

/-- `DIR_BIT_VALUE`: bitmask values representing walls in each direction. -/
def DIR_BIT_VALUE : Dir → Nat
  | Dir.N => 1
  | Dir.E => 2
  | Dir.S => 4
  | Dir.W => 8

/-- `DIR_OPPOSITE`: mapping each direction to its opposite wall direction. -/
def DIR_OPPOSITE : Dir → Dir
  | Dir.N => Dir.S
  | Dir.E => Dir.W
  | Dir.S => Dir.N
  | Dir.W => Dir.E

/-- `DIR_MOVE_DELTA`: movement deltas, x grows rightwards, y grows downwards. -/
def DIR_MOVE_DELTA : Dir → Int × Int
  | Dir.N => (0, -1)
  | Dir.E => (1, 0)
  | Dir.S => (0, 1)
  | Dir.W => (-1, 0)

/-! ## Maze data structure (`maze_files/maze_definitions.py`)

The Python grid is a `height × width` array of wall masks, every cell
initialized to 15 (all four walls closed); we embed it as a total
function `Coord → Nat` (the Python code only ever reads in-bounds
cells). -/

/-- The `Maze` object: width, height, entry, exit and the grid of
per-cell wall bitmasks, `grid (x, y)` standing for `maze.grid[y][x]`. -/
structure Maze where
  width : Int
  height : Int
  entry : Coord
  exit : Coord
  grid : Coord → Nat

/-- `Maze.is_in_bounds`: the coordinate lies in `[0,width) × [0,height)`. -/
def Maze.is_in_bounds (m : Maze) (coord : Coord) : Bool :=
  let (x, y) := coord
  if x < 0 then false
  else if x ≥ m.width then false
  else if y < 0 then false
  else if y ≥ m.height then false
  else true

/-- `Maze.coordinate_validation`: returns the coordinate unchanged or
raises `ValueError` when it is out of maze bounds. -/
def Maze.coordinate_validation (m : Maze) (coord : Coord) (name : String) :
    Except String Coord :=
  if m.is_in_bounds coord then Except.ok coord
  else Except.error ("Error: for " ++ name ++ " Given values are out of maze bounds.")

/-- `Maze.__init__`: validates width, height, entry, exit (positive
dimensions, in-bounds distinct endpoints) and builds the all-walls-closed
grid, every cell `15`. -/
def Maze.make (height width : Int) (entry exit_ : Coord) : Except String Maze :=
  if width ≤ 0 then Except.error "Error: Width value cannot be 0 or negative."
  else if height ≤ 0 then Except.error "Error: Height value cannot be 0 or negative."
  else
    let m0 : Maze := { width := width, height := height, entry := entry,
                       exit := exit_, grid := fun _ => 15 }
    match m0.coordinate_validation entry "entry" with
    | Except.error e => Except.error e
    | Except.ok _ =>
      match m0.coordinate_validation exit_ "exit" with
      | Except.error e => Except.error e
      | Except.ok _ =>
        if entry = exit_ then
          Except.error "Error: Entry and exit points cannot be the same."
        else Except.ok m0

/-! ## Wall operations (`maze_files/wall_operations.py`) -/

/-- `remove_a_wall`: clear the wall bit to open the wall; Python's
`cell & ~direction` on nonnegative ints is `Nat.ldiff`. -/
def remove_a_wall (cell : Nat) (direction : Nat) : Nat :=
  Nat.ldiff cell direction

/-- `add_a_wall`: close a wall by setting its bit. -/
def add_a_wall (cell : Nat) (direction : Nat) : Nat :=
  cell ||| direction

/-- `is_it_solid_wall`: `True` iff the wall bit in the given direction is
set (wall closed). -/
def is_it_solid_wall (cell : Nat) (direction : Nat) : Bool :=
  let wall_bit := cell &&& direction
  if wall_bit ≠ 0 then true else false

/-- Functional update of the grid at one coordinate, embedding the
in-place assignment `maze.grid[y][x] = v`. -/
def gridSet (g : Coord → Nat) (c : Coord) (v : Nat) : Coord → Nat :=
  fun c' => if c' = c then v else g c'

/-- Replace the grid of a maze (the other fields are never mutated). -/
def Maze.withGrid (m : Maze) (g : Coord → Nat) : Maze :=
  { m with grid := g }

/-- `carve_coordinate`: open the wall between two adjacent cells, both
cells updated to remove the shared wall.  Validates bounds, then
adjacency (Manhattan distance exactly 1), determines the direction from
`coord1` to `coord2`, clears that bit on the first cell and the opposite
bit on the second cell. -/
def carve_coordinate (maze : Maze) (coord1 coord2 : Coord) :
    Except String Maze :=
  let (x1, y1) := coord1
  let (x2, y2) := coord2
  match maze.coordinate_validation coord1 "coord1" with
  | Except.error e => Except.error e
  | Except.ok _ =>
  match maze.coordinate_validation coord2 "coord2" with
  | Except.error e => Except.error e
  | Except.ok _ =>
  if (x1 - x2).natAbs + (y1 - y2).natAbs ≠ 1 then
    Except.error "Error: For given coordinates are not adjacent."
  else
    let direction : Option Dir :=
      if x2 = x1 + 1 ∧ y2 = y1 then some Dir.E
      else if x2 = x1 - 1 ∧ y2 = y1 then some Dir.W
      else if y2 = y1 - 1 ∧ x1 = x2 then some Dir.N
      else if y2 = y1 + 1 ∧ x1 = x2 then some Dir.S
      else none
    match direction with
    | none => Except.error
        "Internal error: adjacent cells but direction could not be determined"
    | some dir =>
      let cell_A := maze.grid (x1, y1)
      let cell_B := maze.grid (x2, y2)
      let bit_value := DIR_BIT_VALUE dir
      let new_cell_A := remove_a_wall cell_A bit_value
      let opposite_bit := DIR_BIT_VALUE (DIR_OPPOSITE dir)
      let new_cell_B := remove_a_wall cell_B opposite_bit
      Except.ok (maze.withGrid
        (gridSet (gridSet maze.grid (x1, y1) new_cell_A) (x2, y2) new_cell_B))

/-- The maze state after an in-place `carve_coordinate` call whose
exception, if any, is caught by the caller: on success the mutated maze,
on a raise the maze untouched. -/
def mazeAfterCarve (maze : Maze) (coord1 coord2 : Coord) : Maze :=
  match carve_coordinate maze coord1 coord2 with
  | Except.ok m' => m'
  | Except.error _ => maze

/-! ## Validators (`validators.py`) -/

/-- `check_shared_wall` inside `wall_validator`: coherence between
`(x,y)` in `direction` and neighbor `(nx,ny)` in `opposite`; `true`
when no mismatch is raised. -/
def check_shared_wall (m : Maze) (x y : Int) (direction : Dir)
    (nx ny : Int) (opposite : Dir) : Bool :=
  is_it_solid_wall (m.grid (x, y)) (DIR_BIT_VALUE direction)
    = is_it_solid_wall (m.grid (nx, ny)) (DIR_BIT_VALUE opposite)

/-- `wall_validator`: check that shared walls match between neighbors
(E/W and N/S) over the whole grid; `true` iff no `ValueError` is raised. -/
def wall_validator (m : Maze) : Bool :=
  (List.range m.height.toNat).all fun y =>
    (List.range m.width.toNat).all fun x =>
      ((if (x : Int) + 1 < m.width then
          check_shared_wall m x y Dir.E (x + 1) y Dir.W else true) &&
       (if (y : Int) + 1 < m.height then
          check_shared_wall m x y Dir.S x (y + 1) Dir.N else true))

/-- `closed_borders_validator`: every top-row North wall, left-column
West wall, bottom-row South wall and right-column East wall is closed;
`true` iff no `ValueError` is raised. -/
def closed_borders_validator (m : Maze) : Bool :=
  ((List.range m.width.toNat).all fun x =>
      is_it_solid_wall (m.grid (x, 0)) 1) &&
  ((List.range m.height.toNat).all fun y =>
      is_it_solid_wall (m.grid (0, y)) 8) &&
  ((List.range m.width.toNat).all fun x =>
      is_it_solid_wall (m.grid (x, m.height - 1)) 4) &&
  ((List.range m.height.toNat).all fun y =>
      is_it_solid_wall (m.grid (m.width - 1, y)) 2)

/-! ## Bitmask lemmas -/

/-- Wall coherence: every interior shared edge has matching openness on
both sides (E/W for horizontal neighbors, S/N for vertical). -/
def Coherent (m : Maze) : Prop :=
  (∀ x y : Int, 0 ≤ x → x + 1 < m.width → 0 ≤ y → y < m.height →
    is_it_solid_wall (m.grid (x, y)) 2 = is_it_solid_wall (m.grid (x + 1, y)) 8) ∧
  (∀ x y : Int, 0 ≤ x → x < m.width → 0 ≤ y → y + 1 < m.height →
    is_it_solid_wall (m.grid (x, y)) 4 = is_it_solid_wall (m.grid (x, y + 1)) 1)

/-- Closed borders: the four outer boundary walls are closed for every
border cell. -/
def BordersClosed (m : Maze) : Prop :=
  (∀ x : Int, 0 ≤ x → x < m.width →
    is_it_solid_wall (m.grid (x, 0)) 1 = true) ∧
  (∀ y : Int, 0 ≤ y → y < m.height →
    is_it_solid_wall (m.grid (0, y)) 8 = true) ∧
  (∀ x : Int, 0 ≤ x → x < m.width →
    is_it_solid_wall (m.grid (x, m.height - 1)) 4 = true) ∧
  (∀ y : Int, 0 ≤ y → y < m.height →
    is_it_solid_wall (m.grid (m.width - 1, y)) 2 = true)

/-- The direction from the first to the second coordinate, as determined
inside `carve_coordinate`. -/
def dirFromTo (coord1 coord2 : Coord) : Option Dir :=
  let (x1, y1) := coord1
  let (x2, y2) := coord2
  if x2 = x1 + 1 ∧ y2 = y1 then some Dir.E
  else if x2 = x1 - 1 ∧ y2 = y1 then some Dir.W
  else if y2 = y1 - 1 ∧ x1 = x2 then some Dir.N
  else if y2 = y1 + 1 ∧ x1 = x2 then some Dir.S
  else none

/-- The 18 fixed relative cell offsets of the "42" stencil
(`cells_to_be_blocked` with `sx = sy = 0`). -/
def cells_to_be_blocked : List (Int × Int) :=
  [(0, 0), (4, 0), (5, 0), (6, 0),
   (0, 1), (6, 1),
   (0, 2), (1, 2), (2, 2), (4, 2), (5, 2), (6, 2),
   (2, 3), (4, 3),
   (2, 4), (4, 4), (5, 4), (6, 4)]

/-- The stencil cells mapped to absolute grid coordinates from the
top-left position `(width//2 - 7//2, height//2 - 5//2)` (Python's `//`
is floor division, `Int.fdiv`). -/
def fortyTwoStencil (m : Maze) : List Coord :=
  let x_center := Int.fdiv m.width 2
  let y_center := Int.fdiv m.height 2
  let top_left_x_pos := x_center - Int.fdiv 7 2
  let top_left_y_pos := y_center - Int.fdiv 5 2
  cells_to_be_blocked.map fun p => (top_left_x_pos + p.1, top_left_y_pos + p.2)

/-- `forty_two_marking`: compute the forbidden-cell set of the centered
"42" stencil; empty when the maze is smaller than shape plus margins, or
when the entry and/or exit would land inside the stencil (printed
warning dropped, decoration silently skipped). -/
def forty_two_marking (maze : Maze) : List Coord :=
  let stamp_height : Int := 5
  let stamp_width : Int := 7
  let border_margin : Int := 4
  if maze.height < stamp_height + 2 * border_margin ∨
      maze.width < stamp_width + 2 * border_margin then []
  else
    let forbidden_cells := fortyTwoStencil maze
    let error : Bool :=
      if maze.entry ∈ forbidden_cells ∧ maze.exit ∈ forbidden_cells then true
      else if maze.entry ∈ forbidden_cells then true
      else if maze.exit ∈ forbidden_cells then true
      else false
    if error then [] else forbidden_cells

/-! ## Coordinate path to direction string (`a_maze_ing.py::_coords_to_path`) -/

/-- One loop step of `_coords_to_path`: the direction letter for the
movement delta of a consecutive coordinate pair, `none` when the pair is
not one unit step apart. -/
def stepChar (c1 c2 : Coord) : Option Char :=
  let dx := c2.1 - c1.1
  let dy := c2.2 - c1.2
  if dx = 1 ∧ dy = 0 then some 'E'
  else if dx = -1 ∧ dy = 0 then some 'W'
  else if dx = 0 ∧ dy = -1 then some 'N'
  else if dx = 0 ∧ dy = 1 then some 'S'
  else none

/-- The pairwise loop of `_coords_to_path` over
`zip(coords, coords[1:])`, collecting the step letters and raising on a
non-adjacent step. -/
def coordsSteps : List Coord → Except String (List Char)
  | [] => Except.ok []
  | [_] => Except.ok []
  | c1 :: c2 :: rest =>
    match stepChar c1 c2 with
    | none => Except.error "Non-adjacent steps in path"
    | some ch =>
      match coordsSteps (c2 :: rest) with
      | Except.error e => Except.error e
      | Except.ok t => Except.ok (ch :: t)

/-- `_coords_to_path`: convert a coordinate path into a string of
directional steps (`""` for empty input, one letter per consecutive
pair, `ValueError` on a non-adjacent step). -/
def _coords_to_path (coords : List Coord) : Except String String :=
  match coords with
  | [] => Except.ok ""
  | _ =>
    match coordsSteps coords with
    | Except.error e => Except.error e
    | Except.ok steps => Except.ok (String.mk steps)

/-- A consecutive pair differing by exactly one unit step in one axis. -/
def unitStep (c1 c2 : Coord) : Prop :=
  (c2.1 - c1.1 = 1 ∧ c2.2 - c1.2 = 0) ∨ (c2.1 - c1.1 = -1 ∧ c2.2 - c1.2 = 0) ∨
  (c2.1 - c1.1 = 0 ∧ c2.2 - c1.2 = -1) ∨ (c2.1 - c1.1 = 0 ∧ c2.2 - c1.2 = 1)

instance (c1 c2 : Coord) : Decidable (unitStep c1 c2) := by
  unfold unitStep
  infer_instance

/-- The movement delta of a direction letter (from `DIR_MOVE_DELTA`),
`(0,0)` for any other character. -/
def charDelta (ch : Char) : Int × Int :=
  if ch = 'N' then (0, -1)
  else if ch = 'E' then (1, 0)
  else if ch = 'S' then (0, 1)
  else if ch = 'W' then (-1, 0)
  else (0, 0)

/-- Replay a letter string's movement deltas step-by-step from a start
coordinate, listing every coordinate visited. -/
def replay (c : Coord) : List Char → List Coord
  | [] => [c]
  | ch :: t => c :: replay (c.1 + (charDelta ch).1, c.2 + (charDelta ch).2) t

/-! ## `MazeGenerator.path` property (`mazegen.py`) -/

/-- `MazeGenerator.path`: raises `RuntimeError` when `self._path is
None`; otherwise falls off the end of the property body (no `return`
statement), producing Python's implicit `None`. -/
def MazeGenerator_path (path : Option (List Coord)) :
    Except String (Option (List Coord)) :=
  match path with
  | none => Except.error
      "Maze path is not solved yet. Call solve_maze_path() first to get the path solution."
  | some _ => Except.ok none

/-! ## C7: stencil marker -/

/-- The `while` loop of `bfs_connection_validator`: BFS from the entry
over open edges, excluding forbidden cells, growing the `visited_coords`
list (fuel-indexed embedding of the unbounded loop). -/
def bfs_connection_loop (m : Maze) (forbidden_cells : List Coord) :
    Nat → List Coord → List Coord → List Coord
  | 0, visited_coords, _ => visited_coords
  | _ + 1, visited_coords, [] => visited_coords
  | fuel + 1, visited_coords, current_cell :: rest =>
    let x := current_cell.1
    let y := current_cell.2
    let north_wall := is_it_solid_wall (m.grid (x, y)) 1
    let east_wall := is_it_solid_wall (m.grid (x, y)) 2
    let south_wall := is_it_solid_wall (m.grid (x, y)) 4
    let west_wall := is_it_solid_wall (m.grid (x, y)) 8
    let s1 :=
      if 0 ≤ y - 1 ∧ north_wall = false then
        let nb : Coord := (x, y - 1)
        if nb ∉ visited_coords ∧ nb ∉ forbidden_cells then
          (visited_coords ++ [nb], rest ++ [nb])
        else (visited_coords, rest)
      else (visited_coords, rest)
    let s2 :=
      if x + 1 < m.width ∧ east_wall = false then
        let nb : Coord := (x + 1, y)
        if nb ∉ s1.1 ∧ nb ∉ forbidden_cells then
          (s1.1 ++ [nb], s1.2 ++ [nb])
        else s1
      else s1
    let s3 :=
      if y + 1 < m.height ∧ south_wall = false then
        let nb : Coord := (x, y + 1)
        if nb ∉ s2.1 ∧ nb ∉ forbidden_cells then
          (s2.1 ++ [nb], s2.2 ++ [nb])
        else s2
      else s2
    let s4 :=
      if 0 ≤ x - 1 ∧ west_wall = false then
        let nb : Coord := (x - 1, y)
        if nb ∉ s3.1 ∧ nb ∉ forbidden_cells then
          (s3.1 ++ [nb], s3.2 ++ [nb])
        else s3
      else s3
    bfs_connection_loop m forbidden_cells fuel s4.1 s4.2

/-- `bfs_connection_validator`: runs the BFS loop from the entry and
then falls off the end of the function body — Python's implicit
`return None`; the computed `visited_coords` list is discarded. -/
def bfs_connection_validator (m : Maze) (forbidden_cells : List Coord) :
    Option (List Coord) :=
  let _visited_coords := bfs_connection_loop m forbidden_cells
    (2 * (m.width.toNat * m.height.toNat) + 1) [m.entry] [m.entry]
  none

/-! ## C9: the connectivity check -/

/-- `check_neighbor_pair`: `True` iff the wall in the given direction
from `coord1` is closed (candidate for opening). -/
def check_neighbor_pair (maze : Maze) (coord1 : Coord) (direction : Dir) :
    Bool :=
  let coord1_mask := maze.grid coord1
  is_it_solid_wall coord1_mask (DIR_BIT_VALUE direction)

/-- The candidate scan of `multiple_path_maze`: every East and South
adjacent cell pair whose shared wall is currently closed and with
neither cell in the forbidden set, in row-major scan order. -/
def candidatePairs (maze : Maze) (forbidden_cells : List Coord) :
    List (Coord × Coord × Dir) :=
  (List.range maze.height.toNat).flatMap fun y =>
    (List.range maze.width.toNat).flatMap fun x =>
      (if (x : Int) + 1 < maze.width ∧
          check_neighbor_pair maze ((x : Int), (y : Int)) Dir.E = true ∧
          ((x : Int), (y : Int)) ∉ forbidden_cells ∧
          ((x : Int) + 1, (y : Int)) ∉ forbidden_cells then
        [(((x : Int), (y : Int)), ((x : Int) + 1, (y : Int)), Dir.E)]
      else []) ++
      (if (y : Int) + 1 < maze.height ∧
          check_neighbor_pair maze ((x : Int), (y : Int)) Dir.S = true ∧
          ((x : Int), (y : Int)) ∉ forbidden_cells ∧
          ((x : Int), (y : Int) + 1) ∉ forbidden_cells then
        [(((x : Int), (y : Int)), ((x : Int), (y : Int) + 1), Dir.S)]
      else [])

/-- All East and South adjacent cell pairs of the grid (the same scan
without the closed-wall and forbidden-cell conditions): the canonical
enumeration of the maze's interior walls, one entry per wall. -/
def allESPairs (m : Maze) : List (Coord × Coord × Dir) :=
  (List.range m.height.toNat).flatMap fun y =>
    (List.range m.width.toNat).flatMap fun x =>
      (if (x : Int) + 1 < m.width then
        [(((x : Int), (y : Int)), ((x : Int) + 1, (y : Int)), Dir.E)]
      else []) ++
      (if (y : Int) + 1 < m.height then
        [(((x : Int), (y : Int)), ((x : Int), (y : Int) + 1), Dir.S)]
      else [])

/-- The wall-opening loop of `multiple_path_maze`: pick a random
candidate index, remove that candidate from the pool, carve it; repeat
`extra_paths` times.  (With an empty pool Python's `randint(0, -1)`
would raise; the pool is provably never empty when the loop runs.) -/
def multiple_path_loop (rand : Nat → Nat) :
    Nat → Maze → List (Coord × Coord × Dir) → Nat → Maze × Nat
  | 0, maze, _, idx => (maze, idx)
  | paths + 1, maze, candidate_cells, idx =>
    match candidate_cells with
    | [] => (maze, idx)
    | _ :: _ =>
      let random_pick := rand idx % candidate_cells.length
      let carving_pair := candidate_cells.getD random_pick
        (((0, 0), (0, 0), Dir.E))
      let candidate_cells' := candidate_cells.erase carving_pair
      let maze' := mazeAfterCarve maze carving_pair.1 carving_pair.2.1
      multiple_path_loop rand paths maze' candidate_cells' (idx + 1)

/-- `multiple_path_maze`: open `min(max(1, width·height // 25), |candidates|)`
extra walls chosen at random without replacement among the closed,
non-forbidden East/South pairs. -/
def multiple_path_maze (maze : Maze) (forbidden_cells : List Coord)
    (rand : Nat → Nat) (idx : Nat) : Maze × Nat :=
  let extra_paths := max 1 ((maze.width * maze.height).fdiv 25).toNat
  let candidate_cells := candidatePairs maze forbidden_cells
  let extra_paths := min extra_paths candidate_cells.length
  multiple_path_loop rand extra_paths maze candidate_cells idx

/-- The closed-wall observation used in the extra-connectivity claims:
the wall of an E/S pair, read on its first cell's bitmask exactly as the
candidate scan reads it. -/
def wallOf (g : Coord → Nat) (p : Coord × Coord × Dir) : Bool :=
  is_it_solid_wall (g p.1) (DIR_BIT_VALUE p.2.2)

/-! ## C6 support lemmas -/

/-- Modelled from the spec: one step of the seeded pseudo-random stream
(a concrete linear congruential generator standing in for Python's
seeded Mersenne twister; the spec requires only a single reproducible
seeded stream). -/
def lcg (s : Nat) : Nat := (1103515245 * s + 12345) % 2147483648

/-- Modelled from the spec: the seeded random stream, draw `k`. -/
def randStream (seed : Nat) (k : Nat) : Nat := lcg^[k + 1] seed

/-- Modelled from the spec: the up-to-four eligible neighbors of the
current cell, in canonical direction order, filtered for bounds, not
yet visited, and not forbidden. -/
def dfs_eligible (maze : Maze) (visited forb : List Coord) (c : Coord) :
    List Coord :=
  (DIRECTIONS.map fun d =>
      (c.1 + (DIR_MOVE_DELTA d).1, c.2 + (DIR_MOVE_DELTA d).2)).filter
    fun nc => maze.is_in_bounds nc && decide (nc ∉ visited) &&
      decide (nc ∉ forb)

/-- Modelled from the spec: the DFS carving loop (fuel-indexed); the
full final state `(maze, stack, visited, rng index)` is returned, the
stack emptying on completion. -/
def dfs_loop (forb : List Coord) (rand : Nat → Nat) :
    Nat → Maze → List Coord → List Coord → Nat →
    Maze × List Coord × List Coord × Nat
  | 0, maze, stack, visited, idx => (maze, stack, visited, idx)
  | _ + 1, maze, [], visited, idx => (maze, [], visited, idx)
  | fuel + 1, maze, current :: rest, visited, idx =>
    match dfs_eligible maze visited forb current with
    | [] => dfs_loop forb rand fuel maze rest visited idx
    | e :: etl =>
      let eligible := e :: etl
      let pick := rand idx % eligible.length
      let neighbor := eligible.getD pick (0, 0)
      let maze' := mazeAfterCarve maze current neighbor
      dfs_loop forb rand fuel maze' (neighbor :: current :: rest)
        (neighbor :: visited) (idx + 1)

/-- Modelled from the spec: `dfs_maze_generator` — iterative randomized
DFS carving from the entry, seeded for reproducibility; returns the
carved maze and the index of the next unconsumed random draw. -/
def dfs_maze_generator (maze : Maze) (forb : List Coord) (seed : Nat) :
    Maze × Nat :=
  let fuel := 2 * (maze.width.toNat * maze.height.toNat) + 1
  let st := dfs_loop forb (randStream seed) fuel maze [maze.entry]
    [maze.entry] 0
  (st.1, st.2.2.2)

/-- The generation portion of `a_maze_ing.py::get_state`: build the
maze, compute the "42" forbidden cells, reset their masks to 15, run
DFS carving, and when `perfect` is false run the extra-connectivity
pass on the same random stream. -/
def get_state_maze (height width : Int) (entry exit_ : Coord)
    (seed : Nat) (perfect : Bool) : Except String Maze :=
  match Maze.make height width entry exit_ with
  | Except.error e => Except.error e
  | Except.ok maze =>
    let forty_two_cells := forty_two_marking maze
    let maze := maze.withGrid fun c =>
      if c ∈ forty_two_cells then 15 else maze.grid c
    let gen := dfs_maze_generator maze forty_two_cells seed
    if perfect then Except.ok gen.1
    else Except.ok (multiple_path_maze gen.1 forty_two_cells
      (randStream seed) gen.2).1

/-- All in-bounds cells of a `width × height` grid, row-major (used to
bound the visited set in termination arguments). -/
def cellsList (W H : Int) : List Coord :=
  (List.range H.toNat).flatMap fun y =>
    (List.range W.toNat).map fun x => ((((x : Nat) : Int), ((y : Nat) : Int)) : Coord)

/-- The solver's loop state: `visited_coords`, `coords_to_visit` and
`path_family_tree` (`none` = key absent, `some none` = the entry's
`None` parent marker, `some (some p)` = parent `p`). -/
structure BfsState where
  visited : List Coord
  queue : List Coord
  tree : Coord → Option (Option Coord)

/-- One neighbor examination inside the solver's direction loop: bounds
check, wall check on the current cell's mask, then admit the neighbor
(append to visited and queue, record the parent) if unvisited and not
forbidden. -/
def bfs_enqueue (m : Maze) (forbidden_cells : List Coord) (cur : Coord)
    (mask : Nat) (st : BfsState) (d : Dir) : BfsState :=
  let nx := cur.1 + (DIR_MOVE_DELTA d).1
  let ny := cur.2 + (DIR_MOVE_DELTA d).2
  if 0 ≤ nx ∧ nx < m.width ∧ 0 ≤ ny ∧ ny < m.height then
    if is_it_solid_wall mask (DIR_BIT_VALUE d) = false then
      if (nx, ny) ∉ st.visited ∧ (nx, ny) ∉ forbidden_cells then
        { visited := st.visited ++ [(nx, ny)],
          queue := st.queue ++ [(nx, ny)],
          tree := fun c => if c = (nx, ny) then some (some cur) else st.tree c }
      else st
    else st
  else st

/-- Explore the four neighbors of the dequeued cell in canonical
direction order. -/
def bfs_process (m : Maze) (forbidden_cells : List Coord) (cur : Coord)
    (st : BfsState) : BfsState :=
  DIRECTIONS.foldl (bfs_enqueue m forbidden_cells cur (m.grid cur)) st

/-- The solver's `while` loop (fuel-indexed): dequeue, stop at the exit
(`break`), otherwise admit neighbors and continue. -/
def bfs_loop (m : Maze) (forbidden_cells : List Coord) :
    Nat → BfsState → BfsState
  | 0, st => st
  | fuel + 1, st =>
    match st.queue with
    | [] => st
    | cur :: rest =>
      if cur = m.exit then st
      else bfs_loop m forbidden_cells fuel
        (bfs_process m forbidden_cells cur { st with queue := rest })

/-- The initial solver state: entry visited, enqueued, and rooted in the
parent tree with parent `None`. -/
def bfs_init (m : Maze) : BfsState :=
  { visited := [m.entry], queue := [m.entry],
    tree := fun c => if c = m.entry then some none else none }

/-- The path reconstruction `while last_spot is not None` loop: walk
parent links, appending each spot (fuel-indexed; `none` also stands for
the impossible `KeyError` on a missing parent entry). -/
def backtrace_loop (tree : Coord → Option (Option Coord)) :
    Nat → Coord → List Coord → Option (List Coord)
  | 0, _, _ => none
  | fuel + 1, last_spot, backtrace =>
    match tree last_spot with
    | none => none
    | some none => some (backtrace ++ [last_spot])
    | some (some p) => backtrace_loop tree fuel p (backtrace ++ [last_spot])

/-- `bfs_shortest_path_solver`: BFS from the entry, failing with the
unreachable error when the exit never enters the parent tree, otherwise
reconstructing the path exit-to-entry and reversing it. -/
def bfs_shortest_path_solver (maze : Maze) (forbidden_cells : List Coord) :
    Except String (List Coord) :=
  let st := bfs_loop maze forbidden_cells
    (2 * (maze.width.toNat * maze.height.toNat) + 1) (bfs_init maze)
  match st.tree maze.exit with
  | none => Except.error
      "Error: Exit is not reachable from the maze entry point."
  | some _ =>
    match backtrace_loop st.tree (st.visited.length + 1) maze.exit [] with
    | none => Except.error "Error: backtrace failed"
    | some backtrace => Except.ok backtrace.reverse

/-- A single open move: the target is the neighbor of `c` in direction
`d`, inside the grid, and the wall of `c` toward `d` is open — exactly
the solver's admission test on geometry. -/
def openMove (m : Maze) (c : Coord) (d : Dir) (nc : Coord) : Prop :=
  nc = (c.1 + (DIR_MOVE_DELTA d).1, c.2 + (DIR_MOVE_DELTA d).2) ∧
  0 ≤ nc.1 ∧ nc.1 < m.width ∧ 0 ≤ nc.2 ∧ nc.2 < m.height ∧
  is_it_solid_wall (m.grid c) (DIR_BIT_VALUE d) = false

instance (m : Maze) (c : Coord) (d : Dir) (nc : Coord) :
    Decidable (openMove m c d nc) := by
  unfold openMove
  infer_instance

/-- Reachability from the entry in exactly `n` open steps, every cell
after the entry avoiding the forbidden set (the solver's traversal
relation). -/
inductive ReachN (m : Maze) (forb : List Coord) : Nat → Coord → Prop where
  | entry : ReachN m forb 0 m.entry
  | step {n : Nat} {c nc : Coord} (d : Dir) (h : ReachN m forb n c)
      (ho : openMove m c d nc) (hf : nc ∉ forb) : ReachN m forb (n + 1) nc

/-- A claim-side valid path: from entry to exit inclusive, consecutive
cells joined by open moves, every cell avoiding the forbidden set. -/
def ValidPath (m : Maze) (forb : List Coord) (p : List Coord) : Prop :=
  p.head? = some m.entry ∧ p.getLast? = some m.exit ∧
  List.Chain' (fun c1 c2 => ∃ d, openMove m c1 d c2) p ∧
  ∀ c ∈ p, c ∉ forb

/-- The BFS loop invariant, with a ghost depth assignment `D`:
the parent tree's keys are the visited cells, links are open non-forbidden
moves increasing depth by one, depths of visited cells are exact shortest
open-path distances, the queue is depth-sorted with spread at most one,
fully-processed cells have all their open neighbors discovered, and
undiscovered cells are at least as deep as everything queued. -/
structure BfsInv (m : Maze) (forb : List Coord) (st : BfsState)
    (D : Coord → Nat) : Prop where
  nodup : st.visited.Nodup
  entry_mem : m.entry ∈ st.visited
  keys : ∀ c, (st.tree c).isSome = true ↔ c ∈ st.visited
  tree_entry : st.tree m.entry = some none
  entry_depth : D m.entry = 0
  tree_link : ∀ c p, st.tree c = some (some p) →
    p ∈ st.visited ∧ (∃ d, openMove m p d c) ∧ c ∉ forb ∧ D c = D p + 1
  tree_none : ∀ c, st.tree c = some none → c = m.entry
  queue_sub : ∀ c ∈ st.queue, c ∈ st.visited
  bounds : ∀ c ∈ st.visited, 0 ≤ c.1 ∧ c.1 < m.width ∧ 0 ≤ c.2 ∧
    c.2 < m.height
  depth_lt : ∀ c ∈ st.visited, D c < st.visited.length
  dist_sound : ∀ c ∈ st.visited, ReachN m forb (D c) c
  dist_min : ∀ c ∈ st.visited, ∀ n, ReachN m forb n c → D c ≤ n
  queue_pairwise : List.Pairwise (fun a b => D a ≤ D b) st.queue
  queue_spread : ∀ a ∈ st.queue, ∀ b ∈ st.queue, D a ≤ D b + 1
  proc_closed : ∀ w ∈ st.visited, w ∉ st.queue →
    ∀ d u, openMove m w d u → u ∉ forb → u ∈ st.visited
  far : ∀ u, u ∉ st.visited → ∀ n, ReachN m forb n u →
    ∀ q ∈ st.queue, D q ≤ n

/-- Mid-processing shape of the state while the four directions of a
dequeued cell `cur` are being examined: the newly admitted cells `new`
are appended to both the visited list and the queue, linked to `cur` in
the tree, fresh, not forbidden, and open-move neighbors of `cur`. -/
def BfsMid (m : Maze) (forb : List Coord) (V0 : List Coord)
    (tree0 : Coord → Option (Option Coord)) (cur : Coord)
    (rest new : List Coord) (stM : BfsState) : Prop :=
  stM.visited = V0 ++ new ∧
  stM.queue = rest ++ new ∧
  (∀ c, stM.tree c = if c ∈ new then some (some cur) else tree0 c) ∧
  new.Nodup ∧
  (∀ u ∈ new, u ∉ V0 ∧ u ∉ forb ∧ ∃ d, openMove m cur d u)

theorem is_it_solid_wall_iff (cell d : Nat) :
    is_it_solid_wall cell d = true ↔ cell &&& d ≠ 0 := by
  simp [is_it_solid_wall]

theorem solid_remove_self (c b : Nat) :
    is_it_solid_wall (remove_a_wall c b) b = false := by
  have h : Nat.ldiff c b &&& b = 0 := by
    apply Nat.eq_of_testBit_eq
    intro i
    simp only [Nat.testBit_land, Nat.testBit_ldiff, Nat.zero_testBit]
    cases c.testBit i <;> cases b.testBit i <;> rfl
  simp [is_it_solid_wall, remove_a_wall, h]

theorem solid_remove_other (c b b' : Nat) (hdisj : b &&& b' = 0) :
    is_it_solid_wall (remove_a_wall c b) b' = is_it_solid_wall c b' := by
  have h : Nat.ldiff c b &&& b' = c &&& b' := by
    apply Nat.eq_of_testBit_eq
    intro i
    have hb := congrArg (fun n => Nat.testBit n i) hdisj
    simp only [Nat.testBit_land, Nat.zero_testBit] at hb
    simp only [Nat.testBit_land, Nat.testBit_ldiff]
    cases hc : c.testBit i <;> cases hbi : b.testBit i <;>
      cases hbi' : b'.testBit i <;> simp_all
  simp [is_it_solid_wall, remove_a_wall, h]

/-! ## Structural invariants as propositions

`Coherent` is the wall-coherence invariant checked by `wall_validator`;
`BordersClosed` is the closed-border invariant checked by
`closed_borders_validator`.  Both are stated over all integer
coordinates so they can be carried through the generation loops. -/

theorem is_in_bounds_iff (m : Maze) (c : Coord) :
    m.is_in_bounds c = true ↔
      0 ≤ c.1 ∧ c.1 < m.width ∧ 0 ≤ c.2 ∧ c.2 < m.height := by
  obtain ⟨x, y⟩ := c
  simp only [Maze.is_in_bounds]
  by_cases h1 : x < 0 <;> by_cases h2 : x ≥ m.width <;>
    by_cases h3 : y < 0 <;> by_cases h4 : y ≥ m.height <;>
    simp_all <;> omega

theorem wall_validator_iff (m : Maze) :
    wall_validator m = true ↔ Coherent m := by
  constructor
  · intro h
    simp only [wall_validator, List.all_eq_true, List.mem_range,
      Bool.and_eq_true] at h
    constructor
    · intro x y hx hxw hy hyh
      have hyn : y.toNat < m.height.toNat := by omega
      have hxn : x.toNat < m.width.toNat := by omega
      have := (h y.toNat hyn x.toNat hxn).1
      have hx' : ((x.toNat : Int)) = x := by omega
      have hy' : ((y.toNat : Int)) = y := by omega
      rw [hx', hy'] at this
      rw [if_pos hxw] at this
      simpa [check_shared_wall] using this
    · intro x y hx hxw hy hyh
      have hyn : y.toNat < m.height.toNat := by omega
      have hxn : x.toNat < m.width.toNat := by omega
      have := (h y.toNat hyn x.toNat hxn).2
      have hx' : ((x.toNat : Int)) = x := by omega
      have hy' : ((y.toNat : Int)) = y := by omega
      rw [hx', hy'] at this
      rw [if_pos hyh] at this
      simpa [check_shared_wall] using this
  · intro h
    simp only [wall_validator, List.all_eq_true, List.mem_range,
      Bool.and_eq_true]
    intro y hy x hx
    constructor
    · by_cases hxw : (x : Int) + 1 < m.width
      · rw [if_pos hxw]
        simpa [check_shared_wall] using
          h.1 x y (by omega) hxw (by omega) (by omega)
      · rw [if_neg hxw]
    · by_cases hyh : (y : Int) + 1 < m.height
      · rw [if_pos hyh]
        simpa [check_shared_wall] using
          h.2 x y (by omega) (by omega) (by omega) hyh
      · rw [if_neg hyh]

theorem closed_borders_validator_iff (m : Maze) :
    closed_borders_validator m = true ↔ BordersClosed m := by
  simp only [closed_borders_validator, Bool.and_eq_true, List.all_eq_true,
    List.mem_range, BordersClosed]
  constructor
  · rintro ⟨⟨⟨h1, h2⟩, h3⟩, h4⟩
    refine ⟨?_, ?_, ?_, ?_⟩
    · intro x hx hxw
      have := h1 x.toNat (by omega)
      have hx' : ((x.toNat : Int)) = x := by omega
      rwa [hx'] at this
    · intro y hy hyh
      have := h2 y.toNat (by omega)
      have hy' : ((y.toNat : Int)) = y := by omega
      rwa [hy'] at this
    · intro x hx hxw
      have := h3 x.toNat (by omega)
      have hx' : ((x.toNat : Int)) = x := by omega
      rwa [hx'] at this
    · intro y hy hyh
      have := h4 y.toNat (by omega)
      have hy' : ((y.toNat : Int)) = y := by omega
      rwa [hy'] at this
  · rintro ⟨h1, h2, h3, h4⟩
    refine ⟨⟨⟨?_, ?_⟩, ?_⟩, ?_⟩
    · intro x hx
      exact h1 x (by omega) (by omega)
    · intro y hy
      exact h2 y (by omega) (by omega)
    · intro x hx
      exact h3 x (by omega) (by omega)
    · intro y hy
      exact h4 y (by omega) (by omega)

/-! ## Carve lemmas -/

theorem gridSet_same (g : Coord → Nat) (c : Coord) (v : Nat) :
    gridSet g c v c = v := by
  simp [gridSet]

theorem gridSet_other (g : Coord → Nat) (c : Coord) (v : Nat) (c' : Coord)
    (h : c' ≠ c) : gridSet g c v c' = g c' := by
  simp [gridSet, h]

theorem carve_eq_of_adjacent (m : Maze) (c1 c2 : Coord)
    (hb1 : m.is_in_bounds c1 = true) (hb2 : m.is_in_bounds c2 = true)
    (d : Dir) (hd : dirFromTo c1 c2 = some d) :
    carve_coordinate m c1 c2 = Except.ok (m.withGrid
      (gridSet (gridSet m.grid c1
          (remove_a_wall (m.grid c1) (DIR_BIT_VALUE d))) c2
          (remove_a_wall (m.grid c2) (DIR_BIT_VALUE (DIR_OPPOSITE d))))) := by
  obtain ⟨x1, y1⟩ := c1
  obtain ⟨x2, y2⟩ := c2
  simp only [dirFromTo] at hd
  simp only [carve_coordinate, Maze.coordinate_validation, hb1, hb2, if_true]
  split_ifs at hd with h1 h2 h3 h4
  · obtain ⟨hx, hy⟩ := h1
    subst hx; subst hy
    cases hd
    rw [if_neg (by omega)]
    simp
  · obtain ⟨hx, hy⟩ := h2
    subst hx; subst hy
    cases hd
    rw [if_neg (by omega)]
    rw [if_neg (by omega), if_pos ⟨rfl, rfl⟩]
  · obtain ⟨hy, hx⟩ := h3
    subst hy; subst hx
    cases hd
    rw [if_neg (by omega)]
    rw [if_neg (by omega), if_neg (by omega), if_pos ⟨rfl, rfl⟩]
  · obtain ⟨hy, hx⟩ := h4
    subst hy; subst hx
    cases hd
    rw [if_neg (by omega)]
    rw [if_neg (by omega), if_neg (by omega), if_neg (by omega),
      if_pos ⟨rfl, rfl⟩]

theorem dirFromTo_of_manhattan_one (c1 c2 : Coord)
    (h : (c1.1 - c2.1).natAbs + (c1.2 - c2.2).natAbs = 1) :
    ∃ d, dirFromTo c1 c2 = some d := by
  obtain ⟨x1, y1⟩ := c1
  obtain ⟨x2, y2⟩ := c2
  simp only [dirFromTo]
  by_cases h1 : x2 = x1 + 1 ∧ y2 = y1
  · exact ⟨Dir.E, by rw [if_pos h1]⟩
  · by_cases h2 : x2 = x1 - 1 ∧ y2 = y1
    · exact ⟨Dir.W, by rw [if_neg h1, if_pos h2]⟩
    · by_cases h3 : y2 = y1 - 1 ∧ x1 = x2
      · exact ⟨Dir.N, by rw [if_neg h1, if_neg h2, if_pos h3]⟩
      · refine ⟨Dir.S, ?_⟩
        rw [if_neg h1, if_neg h2, if_neg h3, if_pos ?_]
        simp only at h1 h2 h3 ⊢
        constructor <;> omega

theorem carve_not_adjacent_eq (m : Maze) (c1 c2 : Coord)
    (hb1 : m.is_in_bounds c1 = true) (hb2 : m.is_in_bounds c2 = true)
    (h : (c1.1 - c2.1).natAbs + (c1.2 - c2.2).natAbs ≠ 1) :
    carve_coordinate m c1 c2 =
      Except.error "Error: For given coordinates are not adjacent." := by
  obtain ⟨x1, y1⟩ := c1
  obtain ⟨x2, y2⟩ := c2
  simp only [carve_coordinate, Maze.coordinate_validation, hb1, hb2, if_true]
  rw [if_pos h]

theorem gridSet_comm (g : Coord → Nat) (c c' : Coord) (v v' : Nat)
    (h : c ≠ c') :
    gridSet (gridSet g c v) c' v' = gridSet (gridSet g c' v') c v := by
  funext a
  by_cases h1 : a = c <;> by_cases h2 : a = c' <;>
    simp_all [gridSet]

theorem solid_dual_self_A (g : Coord → Nat) (A B : Coord) (bA bB : Nat)
    (hAB : A ≠ B) :
    is_it_solid_wall
      (gridSet (gridSet g A (remove_a_wall (g A) bA)) B
        (remove_a_wall (g B) bB) A) bA = false := by
  rw [gridSet_other _ _ _ _ hAB, gridSet_same]
  exact solid_remove_self _ _

theorem solid_dual_self_B (g : Coord → Nat) (A B : Coord) (bA bB : Nat) :
    is_it_solid_wall
      (gridSet (gridSet g A (remove_a_wall (g A) bA)) B
        (remove_a_wall (g B) bB) B) bB = false := by
  rw [gridSet_same]
  exact solid_remove_self _ _

theorem solid_dual_other (g : Coord → Nat) (A B : Coord) (bA bB : Nat)
    (c : Coord) (k : Nat) (hA : c = A → bA &&& k = 0)
    (hB : c = B → bB &&& k = 0) :
    is_it_solid_wall
      (gridSet (gridSet g A (remove_a_wall (g A) bA)) B
        (remove_a_wall (g B) bB) c) k = is_it_solid_wall (g c) k := by
  by_cases hcB : c = B
  · subst hcB
    rw [gridSet_same]
    exact solid_remove_other _ _ _ (hB rfl)
  · rw [gridSet_other _ _ _ _ hcB]
    by_cases hcA : c = A
    · subst hcA
      rw [gridSet_same]
      exact solid_remove_other _ _ _ (hA rfl)
    · rw [gridSet_other _ _ _ _ hcA]

theorem coord_eq_iff (a b x y : Int) :
    ((a, b) : Coord) = (x, y) ↔ a = x ∧ b = y := by
  simp

/-- An East-direction carve (opening bit 2 on `(x,y)` and bit 8 on
`(x+1,y)`) preserves wall coherence. -/
theorem coherent_carve_E (m : Maze) (x y : Int) (h : Coherent m) :
    Coherent (m.withGrid (gridSet (gridSet m.grid (x, y)
      (remove_a_wall (m.grid (x, y)) 2)) (x + 1, y)
      (remove_a_wall (m.grid (x + 1, y)) 8))) := by
  have hAB : ((x, y) : Coord) ≠ (x + 1, y) := by
    rw [ne_eq, coord_eq_iff]
    omega
  constructor
  · intro a b ha haw hb0 hbh
    simp only [Maze.withGrid]
    rcases eq_or_ne ((a, b) : Coord) ((x, y) : Coord) with hc | hc
    · have hc2 : a = x ∧ b = y := (coord_eq_iff a b x y).1 hc
      have hc' : ((a + 1, b) : Coord) = (x + 1, y) := by
        rw [coord_eq_iff]
        omega
      rw [hc, hc']
      rw [solid_dual_self_A _ _ _ _ _ hAB, solid_dual_self_B]
    · have hc2 : ¬(a = x ∧ b = y) := fun hh =>
        hc ((coord_eq_iff a b x y).2 hh)
      have hc' : ((a + 1, b) : Coord) ≠ (x + 1, y) := by
        rw [ne_eq, coord_eq_iff]
        omega
      rw [solid_dual_other _ _ _ _ _ _ _ (fun hh => absurd hh hc)
          (fun _ => by decide),
        solid_dual_other _ _ _ _ _ _ _ (fun _ => by decide)
          (fun hh => absurd hh hc')]
      exact h.1 a b ha haw hb0 hbh
  · intro a b ha haw hb0 hbh
    simp only [Maze.withGrid]
    rw [solid_dual_other _ _ _ _ _ _ _ (fun _ => by decide)
        (fun _ => by decide),
      solid_dual_other _ _ _ _ _ _ _ (fun _ => by decide)
        (fun _ => by decide)]
    exact h.2 a b ha haw hb0 hbh

/-- A South-direction carve (opening bit 4 on `(x,y)` and bit 1 on
`(x,y+1)`) preserves wall coherence. -/
theorem coherent_carve_S (m : Maze) (x y : Int) (h : Coherent m) :
    Coherent (m.withGrid (gridSet (gridSet m.grid (x, y)
      (remove_a_wall (m.grid (x, y)) 4)) (x, y + 1)
      (remove_a_wall (m.grid (x, y + 1)) 1))) := by
  have hAB : ((x, y) : Coord) ≠ (x, y + 1) := by
    rw [ne_eq, coord_eq_iff]
    omega
  constructor
  · intro a b ha haw hb0 hbh
    simp only [Maze.withGrid]
    rw [solid_dual_other _ _ _ _ _ _ _ (fun _ => by decide)
        (fun _ => by decide),
      solid_dual_other _ _ _ _ _ _ _ (fun _ => by decide)
        (fun _ => by decide)]
    exact h.1 a b ha haw hb0 hbh
  · intro a b ha haw hb0 hbh
    simp only [Maze.withGrid]
    rcases eq_or_ne ((a, b) : Coord) ((x, y) : Coord) with hc | hc
    · have hc2 : a = x ∧ b = y := (coord_eq_iff a b x y).1 hc
      have hc' : ((a, b + 1) : Coord) = (x, y + 1) := by
        rw [coord_eq_iff]
        omega
      rw [hc, hc']
      rw [solid_dual_self_A _ _ _ _ _ hAB, solid_dual_self_B]
    · have hc2 : ¬(a = x ∧ b = y) := fun hh =>
        hc ((coord_eq_iff a b x y).2 hh)
      have hc' : ((a, b + 1) : Coord) ≠ (x, y + 1) := by
        rw [ne_eq, coord_eq_iff]
        omega
      rw [solid_dual_other _ _ _ _ _ _ _ (fun hh => absurd hh hc)
          (fun _ => by decide),
        solid_dual_other _ _ _ _ _ _ _ (fun _ => by decide)
          (fun hh => absurd hh hc')]
      exact h.2 a b ha haw hb0 hbh

theorem dirFromTo_delta (c1 c2 : Coord) (d : Dir)
    (hd : dirFromTo c1 c2 = some d) :
    c2.1 = c1.1 + (DIR_MOVE_DELTA d).1 ∧ c2.2 = c1.2 + (DIR_MOVE_DELTA d).2 := by
  obtain ⟨x1, y1⟩ := c1
  obtain ⟨x2, y2⟩ := c2
  simp only [dirFromTo] at hd
  split_ifs at hd with h1 h2 h3 h4 <;>
    first
      | (cases hd; simp only [DIR_MOVE_DELTA]; omega)
      | (exact absurd hd (by simp))

theorem carve_ok_inv (m : Maze) (c1 c2 : Coord) (m' : Maze)
    (hok : carve_coordinate m c1 c2 = Except.ok m') :
    m.is_in_bounds c1 = true ∧ m.is_in_bounds c2 = true ∧
    ∃ d, dirFromTo c1 c2 = some d ∧
      m' = m.withGrid (gridSet (gridSet m.grid c1
        (remove_a_wall (m.grid c1) (DIR_BIT_VALUE d))) c2
        (remove_a_wall (m.grid c2) (DIR_BIT_VALUE (DIR_OPPOSITE d)))) := by
  obtain ⟨x1, y1⟩ := c1
  obtain ⟨x2, y2⟩ := c2
  have hb1 : m.is_in_bounds (x1, y1) = true := by
    by_contra hb1
    simp only [carve_coordinate, Maze.coordinate_validation] at hok
    rw [if_neg hb1] at hok
    simp at hok
  have hb2 : m.is_in_bounds (x2, y2) = true := by
    by_contra hb2
    simp only [carve_coordinate, Maze.coordinate_validation, hb1,
      if_true] at hok
    rw [if_neg hb2] at hok
    simp at hok
  refine ⟨hb1, hb2, ?_⟩
  by_cases hadj : (x1 - x2).natAbs + (y1 - y2).natAbs = 1
  · obtain ⟨d, hd⟩ := dirFromTo_of_manhattan_one (x1, y1) (x2, y2) hadj
    rw [carve_eq_of_adjacent m (x1, y1) (x2, y2) hb1 hb2 d hd] at hok
    exact ⟨d, hd, (Except.ok.injEq _ _ ▸ hok).symm⟩
  · rw [carve_not_adjacent_eq m (x1, y1) (x2, y2) hb1 hb2 hadj] at hok
    cases hok

/-- An East-direction carve preserves the closed borders, given both
cells in bounds. -/
theorem borders_carve_E (m : Maze) (x y : Int) (h : BordersClosed m)
    (hx0 : 0 ≤ x) (hxw : x + 1 < m.width) (hy0 : 0 ≤ y)
    (hyh : y < m.height) :
    BordersClosed (m.withGrid (gridSet (gridSet m.grid (x, y)
      (remove_a_wall (m.grid (x, y)) 2)) (x + 1, y)
      (remove_a_wall (m.grid (x + 1, y)) 8))) := by
  obtain ⟨h1, h2, h3, h4⟩ := h
  refine ⟨?_, ?_, ?_, ?_⟩ <;> intro a ha0 haw <;> simp only [Maze.withGrid]
  · rw [solid_dual_other _ _ _ _ _ _ _ (fun _ => by decide)
      (fun _ => by decide)]
    exact h1 a ha0 haw
  · rw [solid_dual_other _ _ _ _ _ _ _ (fun _ => by decide)
      (fun hh => absurd hh (by rw [coord_eq_iff]; omega))]
    exact h2 a ha0 haw
  · rw [solid_dual_other _ _ _ _ _ _ _ (fun _ => by decide)
      (fun _ => by decide)]
    exact h3 a ha0 haw
  · rw [solid_dual_other _ _ _ _ _ _ _
      (fun hh => absurd hh (by rw [coord_eq_iff]; omega))
      (fun _ => by decide)]
    exact h4 a ha0 haw

/-- A South-direction carve preserves the closed borders, given both
cells in bounds. -/
theorem borders_carve_S (m : Maze) (x y : Int) (h : BordersClosed m)
    (hx0 : 0 ≤ x) (hxw : x < m.width) (hy0 : 0 ≤ y)
    (hyh : y + 1 < m.height) :
    BordersClosed (m.withGrid (gridSet (gridSet m.grid (x, y)
      (remove_a_wall (m.grid (x, y)) 4)) (x, y + 1)
      (remove_a_wall (m.grid (x, y + 1)) 1))) := by
  obtain ⟨h1, h2, h3, h4⟩ := h
  refine ⟨?_, ?_, ?_, ?_⟩ <;> intro a ha0 haw <;> simp only [Maze.withGrid]
  · rw [solid_dual_other _ _ _ _ _ _ _ (fun _ => by decide)
      (fun hh => absurd hh (by rw [coord_eq_iff]; omega))]
    exact h1 a ha0 haw
  · rw [solid_dual_other _ _ _ _ _ _ _ (fun _ => by decide)
      (fun _ => by decide)]
    exact h2 a ha0 haw
  · rw [solid_dual_other _ _ _ _ _ _ _
      (fun hh => absurd hh (by rw [coord_eq_iff]; omega))
      (fun _ => by decide)]
    exact h3 a ha0 haw
  · rw [solid_dual_other _ _ _ _ _ _ _ (fun _ => by decide)
      (fun _ => by decide)]
    exact h4 a ha0 haw

/-- A successful carve preserves the maze dimensions and endpoints, wall
coherence, closed borders, and never sets a wall bit. -/
theorem carve_preserves (m : Maze) (c1 c2 : Coord) (m' : Maze)
    (hok : carve_coordinate m c1 c2 = Except.ok m') :
    m'.width = m.width ∧ m'.height = m.height ∧ m'.entry = m.entry ∧
    m'.exit = m.exit ∧ (Coherent m → Coherent m') ∧
    (BordersClosed m → BordersClosed m') ∧
    (∀ c i, (m'.grid c).testBit i = true → (m.grid c).testBit i = true) := by
  obtain ⟨hb1, hb2, d, hd, hm'⟩ := carve_ok_inv m c1 c2 m' hok
  obtain ⟨x1, y1⟩ := c1
  have hbb1 := (is_in_bounds_iff m (x1, y1)).1 hb1
  have hbb2 := (is_in_bounds_iff m _).1 hb2
  have hdelta := dirFromTo_delta _ _ _ hd
  have hmono : ∀ c i, (m'.grid c).testBit i = true →
      (m.grid c).testBit i = true := by
    intro c i hbit
    rw [hm'] at hbit
    simp only [Maze.withGrid, gridSet, remove_a_wall] at hbit
    split_ifs at hbit with hc1 hc2
    · subst hc1
      rw [Nat.testBit_ldiff, Bool.and_eq_true] at hbit
      exact hbit.1
    · subst hc2
      rw [Nat.testBit_ldiff, Bool.and_eq_true] at hbit
      exact hbit.1
    · exact hbit
  refine ⟨by rw [hm']; rfl, by rw [hm']; rfl, by rw [hm']; rfl,
    by rw [hm']; rfl, ?_, ?_, hmono⟩
  · intro hco
    cases d with
    | E =>
      have hc2 : (c2 : Coord) = (x1 + 1, y1) := by
        rw [coord_eq_iff]
        simp only [DIR_MOVE_DELTA] at hdelta
        omega
      rw [hm', hc2]
      subst hc2
      exact coherent_carve_E m x1 y1 hco
    | W =>
      have hc2 : (c2 : Coord) = (x1 - 1, y1) := by
        rw [coord_eq_iff]
        simp only [DIR_MOVE_DELTA] at hdelta
        omega
      rw [hm', hc2]
      simp only [DIR_BIT_VALUE, DIR_OPPOSITE]
      rw [gridSet_comm _ _ _ _ _ (by rw [ne_eq, coord_eq_iff]; omega)]
      have he := coherent_carve_E m (x1 - 1) y1 hco
      have hx : x1 - 1 + 1 = x1 := by omega
      rw [hx] at he
      exact he
    | N =>
      have hc2 : (c2 : Coord) = (x1, y1 - 1) := by
        rw [coord_eq_iff]
        simp only [DIR_MOVE_DELTA] at hdelta
        omega
      rw [hm', hc2]
      simp only [DIR_BIT_VALUE, DIR_OPPOSITE]
      rw [gridSet_comm _ _ _ _ _ (by rw [ne_eq, coord_eq_iff]; omega)]
      have he := coherent_carve_S m x1 (y1 - 1) hco
      have hy : y1 - 1 + 1 = y1 := by omega
      rw [hy] at he
      exact he
    | S =>
      have hc2 : (c2 : Coord) = (x1, y1 + 1) := by
        rw [coord_eq_iff]
        simp only [DIR_MOVE_DELTA] at hdelta
        omega
      rw [hm', hc2]
      exact coherent_carve_S m x1 y1 hco
  · intro hbo
    cases d with
    | E =>
      have hc2 : (c2 : Coord) = (x1 + 1, y1) := by
        rw [coord_eq_iff]
        simp only [DIR_MOVE_DELTA] at hdelta
        omega
      rw [hc2] at hbb2
      rw [hm', hc2]
      exact borders_carve_E m x1 y1 hbo (by exact hbb1.1)
        (by simpa using hbb2.2.1) hbb1.2.2.1 hbb1.2.2.2
    | W =>
      have hc2 : (c2 : Coord) = (x1 - 1, y1) := by
        rw [coord_eq_iff]
        simp only [DIR_MOVE_DELTA] at hdelta
        omega
      rw [hc2] at hbb2
      rw [hm', hc2]
      simp only [DIR_BIT_VALUE, DIR_OPPOSITE]
      rw [gridSet_comm _ _ _ _ _ (by rw [ne_eq, coord_eq_iff]; omega)]
      have he := borders_carve_E m (x1 - 1) y1 hbo
        (by simpa using hbb2.1) (by have := hbb1.2.1; omega)
        hbb1.2.2.1 hbb1.2.2.2
      have hx : x1 - 1 + 1 = x1 := by omega
      rw [hx] at he
      exact he
    | N =>
      have hc2 : (c2 : Coord) = (x1, y1 - 1) := by
        rw [coord_eq_iff]
        simp only [DIR_MOVE_DELTA] at hdelta
        omega
      rw [hc2] at hbb2
      rw [hm', hc2]
      simp only [DIR_BIT_VALUE, DIR_OPPOSITE]
      rw [gridSet_comm _ _ _ _ _ (by rw [ne_eq, coord_eq_iff]; omega)]
      have he := borders_carve_S m x1 (y1 - 1) hbo hbb1.1 hbb1.2.1
        (by simpa using hbb2.2.2.1) (by have := hbb1.2.2.2; omega)
      have hy : y1 - 1 + 1 = y1 := by omega
      rw [hy] at he
      exact he
    | S =>
      have hc2 : (c2 : Coord) = (x1, y1 + 1) := by
        rw [coord_eq_iff]
        simp only [DIR_MOVE_DELTA] at hdelta
        omega
      rw [hc2] at hbb2
      rw [hm', hc2]
      exact borders_carve_S m x1 y1 hbo hbb1.1 hbb1.2.1 hbb1.2.2.1
        (by simpa using hbb2.2.2.2)

theorem manhattan_one_ne (c1 c2 : Coord)
    (hadj : (c1.1 - c2.1).natAbs + (c1.2 - c2.2).natAbs = 1) : c1 ≠ c2 := by
  obtain ⟨x1, y1⟩ := c1
  obtain ⟨x2, y2⟩ := c2
  rw [ne_eq, coord_eq_iff]
  simp only at hadj
  omega

/-- **C4.** For every maze whose grid satisfies the wall-coherence
invariant and every pair of in-bounds coordinates at Manhattan distance
exactly 1, `carve_coordinate` succeeds, opens the wall bit for the
first-to-second direction on the first cell and the bit for the opposite
direction on the second cell, and the resulting grid still satisfies the
wall-coherence invariant (`wall_validator` still passes). -/
theorem carve_opens_both_sides_and_preserves_coherence
    (m : Maze) (c1 c2 : Coord) (hco : Coherent m)
    (hb1 : m.is_in_bounds c1 = true) (hb2 : m.is_in_bounds c2 = true)
    (hadj : (c1.1 - c2.1).natAbs + (c1.2 - c2.2).natAbs = 1) :
    ∃ d m', dirFromTo c1 c2 = some d ∧
      carve_coordinate m c1 c2 = Except.ok m' ∧
      is_it_solid_wall (m'.grid c1) (DIR_BIT_VALUE d) = false ∧
      is_it_solid_wall (m'.grid c2) (DIR_BIT_VALUE (DIR_OPPOSITE d)) = false ∧
      Coherent m' ∧ wall_validator m' = true := by
  obtain ⟨d, hd⟩ := dirFromTo_of_manhattan_one c1 c2 hadj
  have hok := carve_eq_of_adjacent m c1 c2 hb1 hb2 d hd
  have hne : c1 ≠ c2 := manhattan_one_ne c1 c2 hadj
  refine ⟨d, _, hd, hok, ?_, ?_, ?_, ?_⟩
  · simp only [Maze.withGrid]
    exact solid_dual_self_A _ _ _ _ _ hne
  · simp only [Maze.withGrid]
    exact solid_dual_self_B _ _ _ _ _
  · exact ((carve_preserves m c1 c2 _ hok).2.2.2.2.1) hco
  · rw [wall_validator_iff]
    exact ((carve_preserves m c1 c2 _ hok).2.2.2.2.1) hco

/-- Witness for C4 on a concrete 2×1 maze with all walls closed,
carving east from `(0,0)` to `(1,0)`. -/
theorem carve_opens_both_sides_and_preserves_coherence_witness :
    (let m : Maze := { width := 2, height := 1, entry := (0, 0),
                       exit := (1, 0), grid := fun _ => 15 }
     Coherent m ∧ m.is_in_bounds (0, 0) = true ∧
     m.is_in_bounds (1, 0) = true ∧
     ((((0 : Int), (0 : Int)) : Coord).1 - (((1 : Int), (0 : Int)) : Coord).1).natAbs +
       ((((0 : Int), (0 : Int)) : Coord).2 - (((1 : Int), (0 : Int)) : Coord).2).natAbs = 1 ∧
     (∃ d m', dirFromTo (0, 0) (1, 0) = some d ∧
      carve_coordinate m (0, 0) (1, 0) = Except.ok m' ∧
      is_it_solid_wall (m'.grid (0, 0)) (DIR_BIT_VALUE d) = false ∧
      is_it_solid_wall (m'.grid (1, 0)) (DIR_BIT_VALUE (DIR_OPPOSITE d)) = false ∧
      Coherent m' ∧ wall_validator m' = true)) := by
  refine ⟨?_, ?_, ?_, ?_, ?_⟩
  · exact (wall_validator_iff _).1 (by decide)
  · decide
  · decide
  · decide
  · exact carve_opens_both_sides_and_preserves_coherence _ (0, 0) (1, 0)
      ((wall_validator_iff _).1 (by decide)) (by decide) (by decide)
      (by decide)

/-- **C5.** For every pair of in-bounds coordinates whose Manhattan
distance is not exactly 1, `carve_coordinate` fails with the
not-adjacent error and the maze (hence both cells' wall masks and the
whole grid) is left unchanged. -/
theorem carve_not_adjacent_fails_unchanged (m : Maze) (c1 c2 : Coord)
    (hb1 : m.is_in_bounds c1 = true) (hb2 : m.is_in_bounds c2 = true)
    (hadj : (c1.1 - c2.1).natAbs + (c1.2 - c2.2).natAbs ≠ 1) :
    carve_coordinate m c1 c2 =
      Except.error "Error: For given coordinates are not adjacent." ∧
    mazeAfterCarve m c1 c2 = m := by
  have herr := carve_not_adjacent_eq m c1 c2 hb1 hb2 hadj
  exact ⟨herr, by rw [mazeAfterCarve, herr]⟩

/-- Witness for C5 on a concrete 2×2 maze, attempting to carve the
diagonal `(0,0) → (1,1)`. -/
theorem carve_not_adjacent_fails_unchanged_witness :
    (let m : Maze := { width := 2, height := 2, entry := (0, 0),
                       exit := (1, 1), grid := fun _ => 15 }
     m.is_in_bounds (0, 0) = true ∧ m.is_in_bounds (1, 1) = true ∧
     ((((0 : Int), (0 : Int)) : Coord).1 - (((1 : Int), (1 : Int)) : Coord).1).natAbs +
       ((((0 : Int), (0 : Int)) : Coord).2 - (((1 : Int), (1 : Int)) : Coord).2).natAbs ≠ 1 ∧
     (carve_coordinate m (0, 0) (1, 1) =
        Except.error "Error: For given coordinates are not adjacent." ∧
      mazeAfterCarve m (0, 0) (1, 1) = m)) := by
  refine ⟨by decide, by decide, by decide, ?_⟩
  exact carve_not_adjacent_fails_unchanged _ (0, 0) (1, 1)
    (by decide) (by decide) (by decide)

/-! ## Stencil marker (`maze_files/forty_two_marking.py`) -/

/-- **C7.** `forty_two_marking` returns the empty set whenever
`height < 5 + 2·4` or `width < 7 + 2·4`; otherwise the computed set is
the fixed 18-cell stencil mapped from top-left
`(width//2 - 7//2, height//2 - 5//2)`, and it is returned unless the
entry and/or exit lies inside it, in which case the empty set is
returned instead (soft degradation, never an error). -/
theorem forty_two_marking_spec (m : Maze) :
    (m.height < 5 + 2 * 4 ∨ m.width < 7 + 2 * 4 →
      forty_two_marking m = []) ∧
    (¬(m.height < 5 + 2 * 4 ∨ m.width < 7 + 2 * 4) →
      (fortyTwoStencil m).length = 18 ∧
      ((m.entry ∈ fortyTwoStencil m ∨ m.exit ∈ fortyTwoStencil m) →
        forty_two_marking m = []) ∧
      (m.entry ∉ fortyTwoStencil m → m.exit ∉ fortyTwoStencil m →
        forty_two_marking m = fortyTwoStencil m)) := by
  constructor
  · intro h
    simp only [forty_two_marking]
    rw [if_pos h]
  · intro h
    refine ⟨by simp [fortyTwoStencil, cells_to_be_blocked], ?_, ?_⟩
    · intro hmem
      simp only [forty_two_marking]
      rw [if_neg h]
      have herr : (if m.entry ∈ fortyTwoStencil m ∧ m.exit ∈ fortyTwoStencil m
          then true
          else if m.entry ∈ fortyTwoStencil m then true
          else if m.exit ∈ fortyTwoStencil m then true else false) = true := by
        rcases hmem with h1 | h2
        · by_cases h3 : m.exit ∈ fortyTwoStencil m
          · rw [if_pos ⟨h1, h3⟩]
          · rw [if_neg (by tauto), if_pos h1]
        · by_cases h3 : m.entry ∈ fortyTwoStencil m
          · rw [if_pos ⟨h3, h2⟩]
          · rw [if_neg (by tauto), if_neg h3, if_pos h2]
      rw [herr]
      simp
    · intro h1 h2
      simp only [forty_two_marking]
      rw [if_neg h]
      have herr : (if m.entry ∈ fortyTwoStencil m ∧ m.exit ∈ fortyTwoStencil m
          then true
          else if m.entry ∈ fortyTwoStencil m then true
          else if m.exit ∈ fortyTwoStencil m then true else false) = false := by
        rw [if_neg (by tauto), if_neg h1, if_neg h2]
      rw [herr]
      simp

/-- Witness for C7: on a 20×20 maze with entry `(0,0)`, exit `(19,19)`
the returned set is the 18-cell stencil, non-empty and centered near
`(10,10)`; on a 5×5 maze the returned set is empty. -/
theorem forty_two_marking_spec_witness :
    (let m20 : Maze := { width := 20, height := 20, entry := (0, 0),
                         exit := (19, 19), grid := fun _ => 15 }
     let m5 : Maze := { width := 5, height := 5, entry := (0, 0),
                        exit := (4, 4), grid := fun _ => 15 }
     ¬(m20.height < 5 + 2 * 4 ∨ m20.width < 7 + 2 * 4) ∧
     m20.entry ∉ fortyTwoStencil m20 ∧ m20.exit ∉ fortyTwoStencil m20 ∧
     forty_two_marking m20 = fortyTwoStencil m20 ∧
     forty_two_marking m20 ≠ [] ∧
     (∀ c ∈ forty_two_marking m20,
        (c.1 - 10).natAbs ≤ 3 ∧ (c.2 - 10).natAbs ≤ 2) ∧
     (m5.height < 5 + 2 * 4 ∨ m5.width < 7 + 2 * 4) ∧
     forty_two_marking m5 = []) := by
  refine ⟨by decide, by decide, by decide, ?_, by decide, by decide,
    by decide, ?_⟩
  · exact ((forty_two_marking_spec _).2 (by decide)).2.2 (by decide)
      (by decide)
  · exact (forty_two_marking_spec _).1 (by decide)

/-! ## C8: coordinate path to direction string -/

theorem stepChar_none_iff (c1 c2 : Coord) :
    stepChar c1 c2 = none ↔ ¬ unitStep c1 c2 := by
  simp only [stepChar, unitStep]
  split_ifs with h1 h2 h3 h4 <;> simp <;> tauto

theorem stepChar_delta (c1 c2 : Coord) (ch : Char)
    (h : stepChar c1 c2 = some ch) :
    (c1.1 + (charDelta ch).1, c1.2 + (charDelta ch).2) = c2 ∧
    ch ∈ ['N', 'E', 'S', 'W'] := by
  simp only [stepChar] at h
  split_ifs at h with h1 h2 h3 h4
  all_goals cases h
  · refine ⟨?_, by decide⟩
    show ((c1.1 + 1, c1.2 + 0) : Coord) = c2
    rw [Prod.ext_iff]
    exact ⟨by omega, by omega⟩
  · refine ⟨?_, by decide⟩
    show ((c1.1 + (-1), c1.2 + 0) : Coord) = c2
    rw [Prod.ext_iff]
    exact ⟨by omega, by omega⟩
  · refine ⟨?_, by decide⟩
    show ((c1.1 + 0, c1.2 + (-1)) : Coord) = c2
    rw [Prod.ext_iff]
    exact ⟨by omega, by omega⟩
  · refine ⟨?_, by decide⟩
    show ((c1.1 + 0, c1.2 + 1) : Coord) = c2
    rw [Prod.ext_iff]
    exact ⟨by omega, by omega⟩

theorem coordsSteps_length : ∀ (l : List Coord) (s : List Char),
    coordsSteps l = Except.ok s → s.length = l.length - 1
  | [], s, h => by
    simp only [coordsSteps, Except.ok.injEq] at h
    subst h
    rfl
  | [_], s, h => by
    simp only [coordsSteps, Except.ok.injEq] at h
    subst h
    rfl
  | c1 :: c2 :: rest, s, h => by
    simp only [coordsSteps] at h
    cases hst : stepChar c1 c2 with
    | none => rw [hst] at h; cases h
    | some ch =>
      rw [hst] at h
      cases hrec : coordsSteps (c2 :: rest) with
      | error e => rw [hrec] at h; cases h
      | ok t =>
        rw [hrec] at h
        cases h
        have ht := coordsSteps_length (c2 :: rest) t hrec
        simp only [List.length_cons] at ht ⊢
        omega

theorem coordsSteps_mem : ∀ (l : List Coord) (s : List Char),
    coordsSteps l = Except.ok s → ∀ ch ∈ s, ch ∈ ['N', 'E', 'S', 'W']
  | [], s, h => by
    simp only [coordsSteps, Except.ok.injEq] at h
    subst h
    simp
  | [_], s, h => by
    simp only [coordsSteps, Except.ok.injEq] at h
    subst h
    simp
  | c1 :: c2 :: rest, s, h => by
    simp only [coordsSteps] at h
    cases hst : stepChar c1 c2 with
    | none => rw [hst] at h; cases h
    | some ch =>
      rw [hst] at h
      cases hrec : coordsSteps (c2 :: rest) with
      | error e => rw [hrec] at h; cases h
      | ok t =>
        rw [hrec] at h
        cases h
        intro c hc
        rcases List.mem_cons.1 hc with hc | hc
        · subst hc
          exact (stepChar_delta c1 c2 c hst).2
        · exact coordsSteps_mem (c2 :: rest) t hrec c hc

theorem coordsSteps_error_iff : ∀ (l : List Coord),
    (∃ e, coordsSteps l = Except.error e) ↔ ¬ List.Chain' unitStep l
  | [] => by simp [coordsSteps]
  | [c] => by simp [coordsSteps]
  | c1 :: c2 :: rest => by
    rw [List.chain'_cons]
    simp only [coordsSteps]
    cases hst : stepChar c1 c2 with
    | none =>
      have := (stepChar_none_iff c1 c2).1 hst
      simp only [this]
      constructor
      · intro _
        tauto
      · intro _
        exact ⟨_, rfl⟩
    | some ch =>
      have hunit : unitStep c1 c2 := by
        by_contra hne
        rw [← stepChar_none_iff] at hne
        rw [hst] at hne
        cases hne
      cases hrec : coordsSteps (c2 :: rest) with
      | error e =>
        have := (coordsSteps_error_iff (c2 :: rest)).1 ⟨_, hrec⟩
        simp only [this]
        constructor
        · intro _
          tauto
        · intro _
          exact ⟨_, rfl⟩
      | ok t =>
        have hnoerr : ¬∃ e, coordsSteps (c2 :: rest) = Except.error e := by
          rw [hrec]
          simp
        have hch := (coordsSteps_error_iff (c2 :: rest)).not_left.1 hnoerr
        simp [hunit, hch]

theorem coordsSteps_replay : ∀ (c : Coord) (rest : List Coord)
    (s : List Char), coordsSteps (c :: rest) = Except.ok s →
    replay c s = c :: rest
  | c, [], s, h => by
    simp only [coordsSteps, Except.ok.injEq] at h
    subst h
    rfl
  | c1, c2 :: rest, s, h => by
    simp only [coordsSteps] at h
    cases hst : stepChar c1 c2 with
    | none => rw [hst] at h; cases h
    | some ch =>
      rw [hst] at h
      cases hrec : coordsSteps (c2 :: rest) with
      | error e => rw [hrec] at h; cases h
      | ok t =>
        rw [hrec] at h
        cases h
        have hc2 := (stepChar_delta c1 c2 ch hst).1
        simp only [replay, hc2]
        rw [coordsSteps_replay c2 rest t hrec]

/-- **C8.** Converting a coordinate sequence to a direction-letter
string yields one letter from `{N,E,S,W}` per consecutive pair (string
length = sequence length − 1, empty for sequences shorter than 2),
raises the non-adjacent-step error iff some consecutive pair is not a
unit step, and on success replaying the letters' movement deltas from
the first coordinate reconstructs the exact coordinate sequence. -/
theorem coords_to_path_spec (coords : List Coord) :
    (∀ s, _coords_to_path coords = Except.ok s →
      s.length = coords.length - 1 ∧ ∀ ch ∈ s.data, ch ∈ ['N', 'E', 'S', 'W']) ∧
    ((∃ e, _coords_to_path coords = Except.error e) ↔
      ¬ List.Chain' unitStep coords) ∧
    (∀ c rest s, coords = c :: rest → _coords_to_path coords = Except.ok s →
      replay c s.data = coords) := by
  refine ⟨?_, ?_, ?_⟩
  · intro s hs
    cases coords with
    | nil =>
      simp only [_coords_to_path, Except.ok.injEq] at hs
      subst hs
      exact ⟨rfl, by simp [String.data]⟩
    | cons c rest =>
      simp only [_coords_to_path] at hs
      cases hrec : coordsSteps (c :: rest) with
      | error e => rw [hrec] at hs; cases hs
      | ok t =>
        rw [hrec] at hs
        cases hs
        exact ⟨coordsSteps_length _ _ hrec, coordsSteps_mem _ _ hrec⟩
  · cases coords with
    | nil => simp [_coords_to_path]
    | cons c rest =>
      rw [← coordsSteps_error_iff]
      simp only [_coords_to_path]
      cases hrec : coordsSteps (c :: rest) with
      | error e => simp
      | ok t => simp
  · intro c rest s hc hs
    subst hc
    simp only [_coords_to_path] at hs
    cases hrec : coordsSteps (c :: rest) with
    | error e => rw [hrec] at hs; cases hs
    | ok t =>
      rw [hrec] at hs
      cases hs
      exact coordsSteps_replay c rest t hrec

/-- Witness for C8 on the concrete path `[(0,0),(1,0),(1,1)]` (success,
string `"ES"`, replay reconstructs) and `[(0,0),(2,0)]` (non-unit step,
error). -/
theorem coords_to_path_spec_witness :
    (_coords_to_path [((0 : Int), (0 : Int)), (1, 0), (1, 1)] =
        Except.ok "ES" ∧
     ("ES" : String).length = 3 - 1 ∧
     replay ((0 : Int), (0 : Int)) ("ES" : String).data =
        [((0 : Int), (0 : Int)), (1, 0), (1, 1)] ∧
     ¬ List.Chain' unitStep [((0 : Int), (0 : Int)), (2, 0)] ∧
     (∃ e, _coords_to_path [((0 : Int), (0 : Int)), (2, 0)] =
        Except.error e)) := by
  have h1 : _coords_to_path [((0 : Int), (0 : Int)), (1, 0), (1, 1)] =
      Except.ok "ES" := by rfl
  have h4 : ¬ List.Chain' unitStep [((0 : Int), (0 : Int)), (2, 0)] := by
    rw [List.chain'_cons]
    simp [unitStep]
  refine ⟨h1, ?_, ?_, h4, ?_⟩
  · exact ((coords_to_path_spec _).1 "ES" h1).1
  · exact (coords_to_path_spec _).2.2 (0, 0) [(1, 0), (1, 1)] "ES" rfl h1
  · exact (coords_to_path_spec _).2.1.2 h4

/-! ## C10: the `path` property -/

/-- **C10.** `MazeGenerator.path` raises `RuntimeError` when no path has
been recorded, and otherwise returns `None` (the property body has no
`return` for the success case), so a caller never receives the stored
path from this property. -/
theorem mazeGenerator_path_spec (p : Option (List Coord)) :
    (p = none → MazeGenerator_path p = Except.error
      "Maze path is not solved yet. Call solve_maze_path() first to get the path solution.") ∧
    (∀ l, p = some l → MazeGenerator_path p = Except.ok none) ∧
    (∀ l, MazeGenerator_path p ≠ Except.ok (some l)) := by
  cases p <;> simp [MazeGenerator_path]

/-- Witness for C10 at the stored path `[(0,0),(1,0)]` and at the
unsolved state. -/
theorem mazeGenerator_path_spec_witness :
    (MazeGenerator_path (some [((0 : Int), (0 : Int)), (1, 0)]) =
      Except.ok none ∧
     MazeGenerator_path none = Except.error
      "Maze path is not solved yet. Call solve_maze_path() first to get the path solution.") := by
  refine ⟨?_, ?_⟩
  · exact (mazeGenerator_path_spec _).2.1 [((0 : Int), (0 : Int)), (1, 0)] rfl
  · exact (mazeGenerator_path_spec _).1 rfl

/-! ## Connectivity check (`validators.py::bfs_connection_validator`)

The Python loop keeps the current cell at the queue head while appending
admitted neighbors, then pops the head; processing the head against
`rest ++ additions` is the same queue discipline. -/

/-- **C9 (counterexample).** On a concrete 2×1 maze whose single
interior wall is open, the BFS loop computes the visited set
`[(0,0), (1,0)]` (all cells reachable from the entry), yet
`bfs_connection_validator` does not report that set to its caller — it
returns `None`. -/
theorem bfs_connection_validator_counterexample :
    (let mW : Maze := { width := 2, height := 1, entry := (0, 0),
                        exit := (1, 0),
                        grid := fun c =>
                          if c = ((0 : Int), (0 : Int)) then 13
                          else if c = ((1 : Int), (0 : Int)) then 7 else 15 }
     bfs_connection_loop mW [] (2 * (mW.width.toNat * mW.height.toNat) + 1)
        [mW.entry] [mW.entry] = [((0 : Int), (0 : Int)), (1, 0)] ∧
     bfs_connection_validator mW [] ≠
        some [((0 : Int), (0 : Int)), (1, 0)]) := by
  exact ⟨by decide, by decide⟩

/-- **C9 (amended).** `bfs_connection_validator` computes the visited
set internally but returns `None` for every maze and forbidden-cell set
— it reports nothing to its caller, never mutates the maze (it is a
pure reader of the grid), and raises no condition of its own. -/
theorem bfs_connection_validator_returns_none (m : Maze)
    (forbidden_cells : List Coord) :
    bfs_connection_validator m forbidden_cells = none ∧
    ∀ l, bfs_connection_validator m forbidden_cells ≠ some l := by
  exact ⟨rfl, fun l h => Option.noConfusion h⟩

/-! ## Extra-connectivity pass (`maze_files/multiple_path_maze.py`)

Python's global `random` module, seeded upstream, is embedded as an
abstract stream `rand : Nat → Nat` together with the index of the next
draw, threaded through in state-passing style;
`random.randint(0, len - 1)` becomes `rand idx % len`. -/

theorem flatMap_sublist {α β : Type*} (l : List α) (f g : α → List β)
    (h : ∀ a ∈ l, (f a).Sublist (g a)) :
    (l.flatMap f).Sublist (l.flatMap g) := by
  induction l with
  | nil => simp
  | cons a t ih =>
    simp only [List.flatMap_cons]
    exact (h a (List.mem_cons_self a t)).append
      (ih fun b hb => h b (List.mem_cons_of_mem a hb))

theorem candidatePairs_sublist_allESPairs (m : Maze) (forb : List Coord) :
    (candidatePairs m forb).Sublist (allESPairs m) := by
  apply flatMap_sublist
  intro y _
  apply flatMap_sublist
  intro x _
  apply List.Sublist.append
  · split_ifs with h1 h2
    · exact List.Sublist.refl _
    · exact absurd h1.1 h2
    · exact List.nil_sublist _
    · exact List.Sublist.refl _
  · split_ifs with h1 h2
    · exact List.Sublist.refl _
    · exact absurd h1.1 h2
    · exact List.nil_sublist _
    · exact List.Sublist.refl _

theorem mem_allESPairs (m : Maze) (p : Coord × Coord × Dir) :
    p ∈ allESPairs m ↔ ∃ x y : Int,
      0 ≤ x ∧ x < m.width ∧ 0 ≤ y ∧ y < m.height ∧
      ((x + 1 < m.width ∧ p = ((x, y), (x + 1, y), Dir.E)) ∨
       (y + 1 < m.height ∧ p = ((x, y), (x, y + 1), Dir.S))) := by
  simp only [allESPairs, List.mem_flatMap, List.mem_range, List.mem_append]
  constructor
  · rintro ⟨y, hy, x, hx, h | h⟩
    · split_ifs at h with hc
      · rw [List.mem_singleton] at h
        exact ⟨x, y, by omega, by omega, by omega, by omega, Or.inl ⟨hc, h⟩⟩
      · cases h
    · split_ifs at h with hc
      · rw [List.mem_singleton] at h
        exact ⟨x, y, by omega, by omega, by omega, by omega, Or.inr ⟨hc, h⟩⟩
      · cases h
  · rintro ⟨x, y, hx0, hxw, hy0, hyh, hcase⟩
    refine ⟨y.toNat, by omega, x.toNat, by omega, ?_⟩
    have hxx : ((x.toNat : Int)) = x := by omega
    have hyy : ((y.toNat : Int)) = y := by omega
    rw [hxx, hyy]
    rcases hcase with ⟨hc, hp⟩ | ⟨hc, hp⟩
    · left
      rw [if_pos hc, List.mem_singleton]
      exact hp
    · right
      rw [if_pos hc, List.mem_singleton]
      exact hp

theorem mem_candidatePairs (m : Maze) (forb : List Coord)
    (p : Coord × Coord × Dir) :
    p ∈ candidatePairs m forb ↔ ∃ x y : Int,
      0 ≤ x ∧ x < m.width ∧ 0 ≤ y ∧ y < m.height ∧
      ((x + 1 < m.width ∧ check_neighbor_pair m (x, y) Dir.E = true ∧
          (x, y) ∉ forb ∧ (x + 1, y) ∉ forb ∧
          p = ((x, y), (x + 1, y), Dir.E)) ∨
       (y + 1 < m.height ∧ check_neighbor_pair m (x, y) Dir.S = true ∧
          (x, y) ∉ forb ∧ (x, y + 1) ∉ forb ∧
          p = ((x, y), (x, y + 1), Dir.S))) := by
  simp only [candidatePairs, List.mem_flatMap, List.mem_range, List.mem_append]
  constructor
  · rintro ⟨y, hy, x, hx, h | h⟩
    · split_ifs at h with hc
      · rw [List.mem_singleton] at h
        exact ⟨x, y, by omega, by omega, by omega, by omega,
          Or.inl ⟨hc.1, hc.2.1, hc.2.2.1, hc.2.2.2, h⟩⟩
      · cases h
    · split_ifs at h with hc
      · rw [List.mem_singleton] at h
        exact ⟨x, y, by omega, by omega, by omega, by omega,
          Or.inr ⟨hc.1, hc.2.1, hc.2.2.1, hc.2.2.2, h⟩⟩
      · cases h
  · rintro ⟨x, y, hx0, hxw, hy0, hyh, hcase⟩
    refine ⟨y.toNat, by omega, x.toNat, by omega, ?_⟩
    have hxx : ((x.toNat : Int)) = x := by omega
    have hyy : ((y.toNat : Int)) = y := by omega
    rw [hxx, hyy]
    rcases hcase with ⟨hc1, hc2, hc3, hc4, hp⟩ | ⟨hc1, hc2, hc3, hc4, hp⟩
    · left
      rw [if_pos ⟨hc1, hc2, hc3, hc4⟩, List.mem_singleton]
      exact hp
    · right
      rw [if_pos ⟨hc1, hc2, hc3, hc4⟩, List.mem_singleton]
      exact hp

/-- Geometric shape of an E/S pair: its second cell and bounds are
determined by the first cell and the direction. -/
theorem allESPairs_shape (m : Maze) (p : Coord × Coord × Dir)
    (hp : p ∈ allESPairs m) :
    (p.2.2 = Dir.E ∧ p.2.1 = (p.1.1 + 1, p.1.2) ∧ 0 ≤ p.1.1 ∧
      p.1.1 + 1 < m.width ∧ 0 ≤ p.1.2 ∧ p.1.2 < m.height) ∨
    (p.2.2 = Dir.S ∧ p.2.1 = (p.1.1, p.1.2 + 1) ∧ 0 ≤ p.1.1 ∧
      p.1.1 < m.width ∧ 0 ≤ p.1.2 ∧ p.1.2 + 1 < m.height) := by
  rw [mem_allESPairs] at hp
  obtain ⟨x, y, hx0, hxw, hy0, hyh, hcase⟩ := hp
  rcases hcase with ⟨hc, hp⟩ | ⟨hc, hp⟩
  · subst hp
    exact Or.inl ⟨rfl, rfl, hx0, hc, hy0, hyh⟩
  · subst hp
    exact Or.inr ⟨rfl, rfl, hx0, hxw, hy0, hc⟩

/-- An E/S pair is determined by its first cell and its direction. -/
theorem allESPairs_inj (m : Maze) (p q : Coord × Coord × Dir)
    (hp : p ∈ allESPairs m) (hq : q ∈ allESPairs m)
    (h1 : p.1 = q.1) (h2 : p.2.2 = q.2.2) : p = q := by
  obtain ⟨pa, pb, pd⟩ := p
  obtain ⟨qa, qb, qd⟩ := q
  simp only at h1 h2
  subst h1
  subst h2
  rcases allESPairs_shape m _ hp with ⟨_, hsb, _⟩ | ⟨hd, hsb, _⟩ <;>
    rcases allESPairs_shape m _ hq with ⟨_, hsb', _⟩ | ⟨hd', hsb', _⟩ <;>
    simp_all

theorem nodup_allESPairs (m : Maze) : (allESPairs m).Nodup := by
  rw [allESPairs, List.nodup_flatMap]
  constructor
  · intro y _
    rw [List.nodup_flatMap]
    constructor
    · intro x _
      split_ifs <;> simp
    · have hlt := List.pairwise_lt_range (n := m.width.toNat)
      refine hlt.imp ?_
      intro x x' hxx
      intro p hp hp'
      have h1 : p.1.1 = (x : Int) := by
        rcases List.mem_append.1 hp with h | h <;> split_ifs at h <;>
          simp_all
      have h2 : p.1.1 = (x' : Int) := by
        rcases List.mem_append.1 hp' with h | h <;> split_ifs at h <;>
          simp_all
      omega
  · have hlt := List.pairwise_lt_range (n := m.height.toNat)
    refine hlt.imp ?_
    intro y y' hyy
    intro p hp hp'
    simp only [List.mem_flatMap, List.mem_range] at hp hp'
    obtain ⟨x, _, hp⟩ := hp
    obtain ⟨x', _, hp'⟩ := hp'
    have h1 : p.1.2 = (y : Int) := by
      rcases List.mem_append.1 hp with h | h <;> split_ifs at h <;>
        simp_all
    have h2 : p.1.2 = (y' : Int) := by
      rcases List.mem_append.1 hp' with h | h <;> split_ifs at h <;>
        simp_all
    omega

theorem nodup_candidatePairs (m : Maze) (forb : List Coord) :
    (candidatePairs m forb).Nodup :=
  (candidatePairs_sublist_allESPairs m forb).nodup (nodup_allESPairs m)

/-- Carving a pair from the E/S enumeration succeeds, opens exactly
that pair's wall, and leaves every other E/S wall reading unchanged. -/
theorem carve_es_pair (m0 mz : Maze) (hw : mz.width = m0.width)
    (hh : mz.height = m0.height) (p : Coord × Coord × Dir)
    (hp : p ∈ allESPairs m0) :
    ∃ mz', carve_coordinate mz p.1 p.2.1 = Except.ok mz' ∧
      mazeAfterCarve mz p.1 p.2.1 = mz' ∧
      mz'.width = mz.width ∧ mz'.height = mz.height ∧
      wallOf mz'.grid p = false ∧
      (∀ q ∈ allESPairs m0, q ≠ p → wallOf mz'.grid q = wallOf mz.grid q) ∧
      (∀ c i, (mz'.grid c).testBit i = true → (mz.grid c).testBit i = true) := by
  obtain ⟨⟨px, py⟩, pb, pd⟩ := p
  rcases allESPairs_shape m0 _ hp with ⟨hd, hb, h3, h4, h5, h6⟩ |
    ⟨hd, hb, h3, h4, h5, h6⟩ <;> simp only at hd hb h3 h4 h5 h6 <;>
    subst hd <;> subst hb
  · -- East pair
    have hb1 : mz.is_in_bounds (px, py) = true := by
      rw [is_in_bounds_iff, hw, hh]
      exact ⟨h3, by omega, h5, h6⟩
    have hb2 : mz.is_in_bounds (px + 1, py) = true := by
      rw [is_in_bounds_iff, hw, hh]
      exact ⟨by omega, by simpa using h4, h5, h6⟩
    have hdir : dirFromTo (px, py) (px + 1, py) = some Dir.E := by
      simp only [dirFromTo]
      rw [if_pos (by simp)]
    have hok := carve_eq_of_adjacent mz (px, py) (px + 1, py) hb1 hb2
      Dir.E hdir
    have hAB : ((px, py) : Coord) ≠ (px + 1, py) := by
      rw [ne_eq, coord_eq_iff]
      omega
    have hpre := carve_preserves mz (px, py) (px + 1, py) _ hok
    refine ⟨_, hok, by rw [mazeAfterCarve, hok], rfl, rfl, ?_, ?_, ?_⟩
    · simp only [wallOf, Maze.withGrid]
      exact solid_dual_self_A _ _ _ _ _ hAB
    · intro q hq hne
      obtain ⟨⟨qx, qy⟩, qb, qd⟩ := q
      simp only [wallOf, Maze.withGrid]
      apply solid_dual_other
      · intro hq1
        rcases allESPairs_shape m0 _ hq with ⟨hqd, _⟩ | ⟨hqd, _⟩ <;>
          simp only at hqd <;> subst hqd
        · exact absurd (allESPairs_inj m0 _ _ hq hp (by exact hq1) rfl) hne
        · decide
      · intro _
        rcases allESPairs_shape m0 _ hq with ⟨hqd, _⟩ | ⟨hqd, _⟩ <;>
          simp only at hqd <;> subst hqd <;> decide
    · exact hpre.2.2.2.2.2.2
  · -- South pair
    have hb1 : mz.is_in_bounds (px, py) = true := by
      rw [is_in_bounds_iff, hw, hh]
      exact ⟨h3, h4, h5, by omega⟩
    have hb2 : mz.is_in_bounds (px, py + 1) = true := by
      rw [is_in_bounds_iff, hw, hh]
      exact ⟨h3, h4, by omega, by simpa using h6⟩
    have hdir : dirFromTo (px, py) (px, py + 1) = some Dir.S := by
      simp only [dirFromTo]
      rw [if_neg (by rintro ⟨h, -⟩; omega), if_neg (by rintro ⟨h, -⟩; omega),
        if_neg (by rintro ⟨h, -⟩; omega), if_pos (by simp)]
    have hok := carve_eq_of_adjacent mz (px, py) (px, py + 1) hb1 hb2
      Dir.S hdir
    have hAB : ((px, py) : Coord) ≠ (px, py + 1) := by
      rw [ne_eq, coord_eq_iff]
      omega
    have hpre := carve_preserves mz (px, py) (px, py + 1) _ hok
    refine ⟨_, hok, by rw [mazeAfterCarve, hok], rfl, rfl, ?_, ?_, ?_⟩
    · simp only [wallOf, Maze.withGrid]
      exact solid_dual_self_A _ _ _ _ _ hAB
    · intro q hq hne
      obtain ⟨⟨qx, qy⟩, qb, qd⟩ := q
      simp only [wallOf, Maze.withGrid]
      apply solid_dual_other
      · intro hq1
        rcases allESPairs_shape m0 _ hq with ⟨hqd, _⟩ | ⟨hqd, _⟩ <;>
          simp only at hqd <;> subst hqd
        · decide
        · exact absurd (allESPairs_inj m0 _ _ hq hp (by exact hq1) rfl) hne
      · intro _
        rcases allESPairs_shape m0 _ hq with ⟨hqd, _⟩ | ⟨hqd, _⟩ <;>
          simp only at hqd <;> subst hqd <;> decide
    · exact hpre.2.2.2.2.2.2

/-- Invariant-carrying induction over the wall-opening loop of
`multiple_path_maze`: after `n` iterations some sub-pool `Rf` of the
remaining candidates is left, exactly the chosen `n` candidates have
their walls opened, and every other E/S wall keeps its initial state. -/
theorem multiple_path_loop_spec (m0 : Maze) (forb : List Coord)
    (rand : Nat → Nat) :
    ∀ (n : Nat) (mz : Maze) (R : List (Coord × Coord × Dir)) (idx : Nat),
    mz.width = m0.width → mz.height = m0.height →
    n ≤ R.length → R.Sublist (candidatePairs m0 forb) →
    (∀ p ∈ R, wallOf mz.grid p = true) →
    (∀ p ∈ allESPairs m0, wallOf mz.grid p =
      (if p ∈ candidatePairs m0 forb ∧ p ∉ R then false
       else wallOf m0.grid p)) →
    (∀ c i, (mz.grid c).testBit i = true → (m0.grid c).testBit i = true) →
    ∃ Rf : List (Coord × Coord × Dir), Rf.Sublist R ∧
      Rf.length = R.length - n ∧
      (multiple_path_loop rand n mz R idx).1.width = m0.width ∧
      (multiple_path_loop rand n mz R idx).1.height = m0.height ∧
      (∀ p ∈ Rf, wallOf (multiple_path_loop rand n mz R idx).1.grid p = true) ∧
      (∀ p ∈ allESPairs m0,
        wallOf (multiple_path_loop rand n mz R idx).1.grid p =
        (if p ∈ candidatePairs m0 forb ∧ p ∉ Rf then false
         else wallOf m0.grid p)) ∧
      (∀ c i, ((multiple_path_loop rand n mz R idx).1.grid c).testBit i = true →
        (m0.grid c).testBit i = true) := by
  intro n
  induction n with
  | zero =>
    intro mz R idx hw hh hn hsub hA hC hmono
    exact ⟨R, List.Sublist.refl R, by omega, hw, hh, hA, hC, hmono⟩
  | succ n ih =>
    intro mz R idx hw hh hn hsub hA hC hmono
    match R, hn with
    | r0 :: rtl, hn =>
    have hlen : 0 < (r0 :: rtl).length := by simp
    have hpick : rand idx % (r0 :: rtl).length < (r0 :: rtl).length :=
      Nat.mod_lt _ hlen
    set cp := (r0 :: rtl).getD (rand idx % (r0 :: rtl).length)
      ((0, 0), (0, 0), Dir.E) with hcp
    have hcpmem : cp ∈ (r0 :: rtl) := by
      rw [hcp, List.getD_eq_getElem _ _ hpick]
      exact List.getElem_mem hpick
    have hnodupR : (r0 :: rtl).Nodup :=
      hsub.nodup (nodup_candidatePairs m0 forb)
    have hcpC : cp ∈ candidatePairs m0 forb := hsub.subset hcpmem
    have hcpES : cp ∈ allESPairs m0 :=
      (candidatePairs_sublist_allESPairs m0 forb).subset hcpC
    obtain ⟨mz', hok, hafter, hw', hh', hopen, hothers, hmono'⟩ :=
      carve_es_pair m0 mz hw hh cp hcpES
    have hmemES : ∀ p ∈ (r0 :: rtl), p ∈ allESPairs m0 := fun p hp =>
      (candidatePairs_sublist_allESPairs m0 forb).subset (hsub.subset hp)
    have hlenerase : ((r0 :: rtl).erase cp).length = (r0 :: rtl).length - 1 :=
      List.length_erase_of_mem hcpmem
    have hrec := ih mz' ((r0 :: rtl).erase cp) (idx + 1)
      (hw'.trans hw) (hh'.trans hh) (by omega)
      ((List.erase_sublist cp (r0 :: rtl)).trans hsub)
      (fun p hp => by
        obtain ⟨hne, hmem⟩ := hnodupR.mem_erase_iff.1 hp
        rw [hothers p (hmemES p hmem) hne]
        exact hA p hmem)
      (fun p hpES => by
        by_cases hpe : p = cp
        · subst hpe
          rw [hopen, if_pos ⟨hcpC, hnodupR.not_mem_erase⟩]
        · rw [hothers p hpES hpe, hC p hpES]
          have hiff : (p ∈ candidatePairs m0 forb ∧ p ∉ (r0 :: rtl)) ↔
              (p ∈ candidatePairs m0 forb ∧
                p ∉ (r0 :: rtl).erase cp) := by
            rw [hnodupR.mem_erase_iff]
            constructor
            · rintro ⟨h1, h2⟩
              exact ⟨h1, fun hh2 => h2 hh2.2⟩
            · rintro ⟨h1, h2⟩
              refine ⟨h1, fun hmem => h2 ⟨hpe, hmem⟩⟩
          rw [if_congr hiff rfl rfl])
      (fun c i hbit => hmono c i (hmono' c i hbit))
    obtain ⟨Rf, hRfsub, hRflen, hrw, hrh, hrA, hrC, hrmono⟩ := hrec
    have hloop : multiple_path_loop rand (n + 1) mz (r0 :: rtl) idx =
        multiple_path_loop rand n mz' ((r0 :: rtl).erase cp) (idx + 1) := by
      rw [multiple_path_loop, ← hcp, hafter]
    refine ⟨Rf, hRfsub.trans (List.erase_sublist cp (r0 :: rtl)),
      by omega, ?_, ?_, ?_, ?_, ?_⟩ <;> rw [hloop]
    · exact hrw
    · exact hrh
    · exact hrA
    · exact hrC
    · exact hrmono

/-- **C6.** `multiple_path_maze` opens exactly
`min(max(1, ⌊width·height/25⌋), C)` walls, where `C` counts the E/S
adjacent pairs that are closed at the start with neither cell forbidden;
every opened wall comes from that initially computed candidate set (all
other E/S walls keep their initial reading), and no wall is ever closed
(every cell's final mask has a subset of the set bits of its initial
mask); dimensions are untouched. -/
theorem multiple_path_maze_spec (m : Maze) (forb : List Coord)
    (rand : Nat → Nat) (idx : Nat) :
    ((candidatePairs m forb).filter
        (fun p => !wallOf (multiple_path_maze m forb rand idx).1.grid p)).length =
      min (max 1 ((m.width * m.height).fdiv 25).toNat)
        (candidatePairs m forb).length ∧
    (∀ p ∈ allESPairs m, p ∉ candidatePairs m forb →
      wallOf (multiple_path_maze m forb rand idx).1.grid p =
        wallOf m.grid p) ∧
    (∀ c i, ((multiple_path_maze m forb rand idx).1.grid c).testBit i = true →
      (m.grid c).testBit i = true) ∧
    (multiple_path_maze m forb rand idx).1.width = m.width ∧
    (multiple_path_maze m forb rand idx).1.height = m.height := by
  have hA0 : ∀ p ∈ candidatePairs m forb, wallOf m.grid p = true := by
    intro p hp
    rw [mem_candidatePairs] at hp
    obtain ⟨x, y, _, _, _, _, hcase⟩ := hp
    rcases hcase with ⟨_, hc2, _, _, hp⟩ | ⟨_, hc2, _, _, hp⟩ <;> subst hp <;>
      exact hc2
  have hC0 : ∀ p ∈ allESPairs m, wallOf m.grid p =
      (if p ∈ candidatePairs m forb ∧ p ∉ candidatePairs m forb then false
       else wallOf m.grid p) := by
    intro p _
    rw [if_neg]
    rintro ⟨h1, h2⟩
    exact h2 h1
  obtain ⟨Rf, hRfsub, hRflen, hrw, hrh, hrA, hrC, hrmono⟩ :=
    multiple_path_loop_spec m forb rand
      (min (max 1 ((m.width * m.height).fdiv 25).toNat)
        (candidatePairs m forb).length)
      m (candidatePairs m forb) idx rfl rfl (Nat.min_le_right _ _)
      (List.Sublist.refl _) hA0 hC0 (fun _ _ h => h)
  have hdef : multiple_path_maze m forb rand idx =
      multiple_path_loop rand
        (min (max 1 ((m.width * m.height).fdiv 25).toNat)
          (candidatePairs m forb).length)
        m (candidatePairs m forb) idx := rfl
  rw [hdef]
  have hC0nodup := nodup_candidatePairs m forb
  have hRfnodup := hRfsub.nodup hC0nodup
  refine ⟨?_, ?_, hrmono, hrw, hrh⟩
  · set g' := (multiple_path_loop rand
      (min (max 1 ((m.width * m.height).fdiv 25).toNat)
        (candidatePairs m forb).length)
      m (candidatePairs m forb) idx).1.grid with hg'
    have hsplit := List.length_eq_length_filter_add
      (l := candidatePairs m forb) (fun p => wallOf g' p)
    have hperm : ((candidatePairs m forb).filter
        (fun p => wallOf g' p)).Perm Rf := by
      rw [List.perm_ext_iff_of_nodup (hC0nodup.filter _) hRfnodup]
      intro p
      rw [List.mem_filter]
      constructor
      · rintro ⟨hpC, hpw⟩
        by_contra hpRf
        rw [hrC p ((candidatePairs_sublist_allESPairs m forb).subset hpC),
          if_pos ⟨hpC, hpRf⟩] at hpw
        cases hpw
      · intro hpRf
        exact ⟨hRfsub.subset hpRf, hrA p hpRf⟩
    have hflen := hperm.length_eq
    have hmin := Nat.min_le_right
      (max 1 ((m.width * m.height).fdiv 25).toNat)
      (candidatePairs m forb).length
    simp only [Bool.not_eq_true'] at hsplit ⊢
    omega
  · intro p hpES hpC
    rw [hrC p hpES, if_neg (fun hc => hpC hc.1)]

/-- Witness for C6 on a concrete 3×3 all-walls maze with `(0,0)`
forbidden: exactly `min(max(1, 9/25), 10) = 1` wall is opened, and the
forbidden-adjacent pair `((0,0),(1,0),E)` keeps its closed wall. -/
theorem multiple_path_maze_spec_witness :
    (let m3 : Maze := { width := 3, height := 3, entry := (0, 0),
                        exit := (2, 2), grid := fun _ => 15 }
     let forb : List Coord := [(0, 0)]
     ((candidatePairs m3 forb).filter
        (fun p => !wallOf (multiple_path_maze m3 forb (fun _ => 0) 0).1.grid p)).length = 1 ∧
     ((((0, 0), (1, 0), Dir.E) : Coord × Coord × Dir) ∈ allESPairs m3) ∧
     ((((0, 0), (1, 0), Dir.E) : Coord × Coord × Dir) ∉ candidatePairs m3 forb) ∧
     wallOf (multiple_path_maze m3 forb (fun _ => 0) 0).1.grid
        (((0, 0), (1, 0), Dir.E)) =
       wallOf m3.grid (((0, 0), (1, 0), Dir.E)) ∧
     (multiple_path_maze m3 forb (fun _ => 0) 0).1.width = m3.width) := by
  refine ⟨?_, by decide, by decide, ?_, ?_⟩
  · exact ((multiple_path_maze_spec _ _ (fun _ => 0) 0).1).trans (by decide)
  · exact (multiple_path_maze_spec _ _ (fun _ => 0) 0).2.1 _ (by decide)
      (by decide)
  · exact (multiple_path_maze_spec _ _ (fun _ => 0) 0).2.2.2.1

/-! ## DFS maze generator

Modelled from the spec: `maze_files/dfs_maze_generator.py` is imported
by `a_maze_ing.py` and `mazegen.py` but is absent from the repository
sources, so `dfs_maze_generator` is reconstructed from spec §4.5:
randomized iterative depth-first carving over an explicit stack with a
visited set, neighbors enumerated in canonical direction order and
filtered for bounds, visitedness and forbidden cells; one seeded draw
per branching decision picks the carved neighbor; no eligible neighbor
pops the stack. -/

theorem mem_cellsList (W H : Int) (cx cy : Int) :
    ((cx, cy) : Coord) ∈ cellsList W H ↔
      0 ≤ cx ∧ cx < W ∧ 0 ≤ cy ∧ cy < H := by
  simp only [cellsList, List.mem_flatMap, List.mem_range, List.mem_map]
  constructor
  · rintro ⟨y, hy, x, hx, hc⟩
    rw [coord_eq_iff] at hc
    obtain ⟨h1, h2⟩ := hc
    omega
  · rintro ⟨h1, h2, h3, h4⟩
    refine ⟨cy.toNat, by omega, cx.toNat, by omega, ?_⟩
    rw [coord_eq_iff]
    omega

theorem length_cellsList (W H : Int) :
    (cellsList W H).length = W.toNat * H.toNat := by
  rw [cellsList, List.length_flatMap]
  have hmap : List.map (List.length ∘ fun y =>
      (List.range W.toNat).map fun x =>
        ((((x : Nat) : Int), ((y : Nat) : Int)) : Coord))
      (List.range H.toNat) = (List.range H.toNat).map fun _ => W.toNat := by
    apply List.map_congr_left
    intro y _
    simp
  rw [hmap, List.map_const', List.sum_replicate, List.length_range,
    smul_eq_mul, Nat.mul_comm]

/-- A duplicate-free list of in-bounds cells has at most `W·H` members. -/
theorem length_le_numCells (W H : Int) (l : List Coord) (hnd : l.Nodup)
    (hb : ∀ v ∈ l, 0 ≤ v.1 ∧ v.1 < W ∧ 0 ≤ v.2 ∧ v.2 < H) :
    l.length ≤ W.toNat * H.toNat := by
  rw [← length_cellsList W H]
  exact (hnd.subperm fun v hv =>
    (mem_cellsList W H v.1 v.2).2 (hb v hv)).length_le

/-- Eligible DFS neighbors are in bounds, unvisited, and not forbidden. -/
theorem mem_dfs_eligible (maze : Maze) (visited forb : List Coord)
    (c nc : Coord) (h : nc ∈ dfs_eligible maze visited forb c) :
    maze.is_in_bounds nc = true ∧ nc ∉ visited ∧ nc ∉ forb := by
  rw [dfs_eligible, List.mem_filter] at h
  obtain ⟨-, h⟩ := h
  simp only [Bool.and_eq_true, decide_eq_true_eq] at h
  exact ⟨h.1.1, h.1.2, h.2⟩

/-- `mazeAfterCarve` (carve with the caller absorbing any exception)
preserves dimensions, endpoints, wall coherence, closed borders, and
never sets a bit. -/
theorem mazeAfterCarve_preserves (mz : Maze) (c1 c2 : Coord) :
    (mazeAfterCarve mz c1 c2).width = mz.width ∧
    (mazeAfterCarve mz c1 c2).height = mz.height ∧
    (mazeAfterCarve mz c1 c2).entry = mz.entry ∧
    (mazeAfterCarve mz c1 c2).exit = mz.exit ∧
    (Coherent mz → Coherent (mazeAfterCarve mz c1 c2)) ∧
    (BordersClosed mz → BordersClosed (mazeAfterCarve mz c1 c2)) ∧
    (∀ c i, ((mazeAfterCarve mz c1 c2).grid c).testBit i = true →
      (mz.grid c).testBit i = true) := by
  cases hok : carve_coordinate mz c1 c2 with
  | error e =>
    have h : mazeAfterCarve mz c1 c2 = mz := by rw [mazeAfterCarve, hok]
    rw [h]
    exact ⟨rfl, rfl, rfl, rfl, id, id, fun _ _ h => h⟩
  | ok m' =>
    have h : mazeAfterCarve mz c1 c2 = m' := by rw [mazeAfterCarve, hok]
    rw [h]
    exact carve_preserves mz c1 c2 m' hok

/-- The DFS loop preserves dimensions, endpoints, wall coherence and
closed borders, whatever the fuel, stack, visited set and stream. -/
theorem dfs_loop_valid (forb : List Coord) (rand : Nat → Nat) :
    ∀ (fuel : Nat) (mz : Maze) (stack visited : List Coord) (idx : Nat),
    Coherent mz → BordersClosed mz →
    (dfs_loop forb rand fuel mz stack visited idx).1.width = mz.width ∧
    (dfs_loop forb rand fuel mz stack visited idx).1.height = mz.height ∧
    (dfs_loop forb rand fuel mz stack visited idx).1.entry = mz.entry ∧
    (dfs_loop forb rand fuel mz stack visited idx).1.exit = mz.exit ∧
    Coherent (dfs_loop forb rand fuel mz stack visited idx).1 ∧
    BordersClosed (dfs_loop forb rand fuel mz stack visited idx).1 := by
  intro fuel
  induction fuel with
  | zero =>
    intro mz stack visited idx hco hbo
    exact ⟨rfl, rfl, rfl, rfl, hco, hbo⟩
  | succ fuel ih =>
    intro mz stack visited idx hco hbo
    cases stack with
    | nil => exact ⟨rfl, rfl, rfl, rfl, hco, hbo⟩
    | cons current rest =>
      cases helig : dfs_eligible mz visited forb current with
      | nil =>
        simp only [dfs_loop, helig]
        exact ih mz rest visited idx hco hbo
      | cons e etl =>
        simp only [dfs_loop, helig]
        have hpr := mazeAfterCarve_preserves mz current
          ((e :: etl).getD (rand idx % (e :: etl).length) (0, 0))
        have hrec := ih (mazeAfterCarve mz current
            ((e :: etl).getD (rand idx % (e :: etl).length) (0, 0)))
          (((e :: etl).getD (rand idx % (e :: etl).length) (0, 0)) ::
            current :: rest)
          (((e :: etl).getD (rand idx % (e :: etl).length) (0, 0)) :: visited)
          (idx + 1) (hpr.2.2.2.2.1 hco) (hpr.2.2.2.2.2.1 hbo)
        exact ⟨hrec.1.trans hpr.1, hrec.2.1.trans hpr.2.1,
          hrec.2.2.1.trans hpr.2.2.1, hrec.2.2.2.1.trans hpr.2.2.2.1,
          hrec.2.2.2.2.1, hrec.2.2.2.2.2⟩

/-- The DFS loop reaches the empty stack (generation completes) given
enough fuel for the measure `2·(cells − |visited|) + |stack|`. -/
theorem dfs_loop_completes (forb : List Coord) (rand : Nat → Nat)
    (W H : Int) :
    ∀ (fuel : Nat) (mz : Maze) (stack visited : List Coord) (idx : Nat),
    mz.width = W → mz.height = H → visited.Nodup →
    (∀ v ∈ visited, 0 ≤ v.1 ∧ v.1 < W ∧ 0 ≤ v.2 ∧ v.2 < H) →
    (∀ s ∈ stack, s ∈ visited) →
    2 * (W.toNat * H.toNat - visited.length) + stack.length < fuel →
    (dfs_loop forb rand fuel mz stack visited idx).2.1 = [] := by
  intro fuel
  induction fuel with
  | zero =>
    intro mz stack visited idx _ _ _ _ _ hfuel
    exact absurd hfuel (by omega)
  | succ fuel ih =>
    intro mz stack visited idx hw hh hnd hb hsv hfuel
    cases stack with
    | nil => rfl
    | cons current rest =>
      have hvlen : visited.length ≤ W.toNat * H.toNat :=
        length_le_numCells W H visited hnd hb
      cases helig : dfs_eligible mz visited forb current with
      | nil =>
        simp only [dfs_loop, helig]
        refine ih mz rest visited idx hw hh hnd hb
          (fun s hs => hsv s (List.mem_cons_of_mem current hs)) ?_
        simp only [List.length_cons] at hfuel
        omega
      | cons e etl =>
        simp only [dfs_loop, helig]
        have hpick : rand idx % (e :: etl).length < (e :: etl).length :=
          Nat.mod_lt _ (by simp)
        set nb := (e :: etl).getD (rand idx % (e :: etl).length) (0, 0)
          with hnb
        have hnbmem : nb ∈ dfs_eligible mz visited forb current := by
          rw [helig, hnb, List.getD_eq_getElem _ _ hpick]
          exact List.getElem_mem hpick
        obtain ⟨hnbb, hnbv, _⟩ := mem_dfs_eligible mz visited forb current nb
          hnbmem
        have hnbb' := (is_in_bounds_iff mz nb).1 hnbb
        rw [hw, hh] at hnbb'
        have hnd' : (nb :: visited).Nodup := by
          rw [List.nodup_cons]
          exact ⟨hnbv, hnd⟩
        have hb' : ∀ v ∈ nb :: visited,
            0 ≤ v.1 ∧ v.1 < W ∧ 0 ≤ v.2 ∧ v.2 < H := by
          intro v hv
          rcases List.mem_cons.1 hv with hv | hv
          · subst hv
            exact hnbb'
          · exact hb v hv
        have hvlen' : (nb :: visited).length ≤ W.toNat * H.toNat :=
          length_le_numCells W H _ hnd' hb'
        have hpr := mazeAfterCarve_preserves mz current nb
        refine ih (mazeAfterCarve mz current nb) (nb :: current :: rest)
          (nb :: visited) (idx + 1) (hpr.1.trans hw) (hpr.2.1.trans hh)
          hnd' hb' ?_ ?_
        · intro s hs
          rcases List.mem_cons.1 hs with hs | hs
          · subst hs
            exact List.mem_cons_self _ _
          · exact List.mem_cons_of_mem nb (hsv s hs)
        · simp only [List.length_cons] at hfuel hvlen' ⊢
          omega

/-- Inversion of a successful `Maze.make`. -/
theorem Maze.make_ok (height width : Int) (entry exit_ : Coord) (m : Maze)
    (hmk : Maze.make height width entry exit_ = Except.ok m) :
    m.width = width ∧ m.height = height ∧ m.entry = entry ∧
    m.exit = exit_ ∧ (∀ c, m.grid c = 15) ∧ 0 < width ∧ 0 < height ∧
    m.is_in_bounds entry = true ∧ m.is_in_bounds exit_ = true ∧
    entry ≠ exit_ := by
  by_cases hw : width ≤ 0
  · rw [Maze.make, if_pos hw] at hmk
    cases hmk
  by_cases hh : height ≤ 0
  · rw [Maze.make, if_neg hw, if_pos hh] at hmk
    cases hmk
  rw [Maze.make, if_neg hw, if_neg hh] at hmk
  simp only [Maze.coordinate_validation] at hmk
  by_cases hbe : Maze.is_in_bounds { width := width, height := height,
                                     entry := entry, exit := exit_,
                                     grid := fun _ => (15 : Nat) } entry = true
  · rw [if_pos hbe] at hmk
    by_cases hbx : Maze.is_in_bounds { width := width, height := height,
                                       entry := entry, exit := exit_,
                                       grid := fun _ => (15 : Nat) } exit_ = true
    · rw [if_pos hbx] at hmk
      by_cases hex : entry = exit_
      · rw [if_pos hex] at hmk
        cases hmk
      · rw [if_neg hex] at hmk
        cases hmk
        exact ⟨rfl, rfl, rfl, rfl, fun _ => rfl, by omega, by omega,
          hbe, hbx, hex⟩
    · rw [if_neg hbx] at hmk
      cases hmk
  · rw [if_neg hbe] at hmk
    cases hmk

/-- An all-walls-closed grid is coherent with closed borders. -/
theorem const15_invariants (m : Maze) (hg : ∀ c, m.grid c = 15) :
    Coherent m ∧ BordersClosed m := by
  constructor
  · constructor <;> intro x y _ _ _ _ <;> rw [hg, hg] <;> decide
  · refine ⟨?_, ?_, ?_, ?_⟩ <;> intro a _ _ <;> rw [hg] <;> decide

/-- The extra-connectivity loop also preserves wall coherence and the
closed borders (it only ever carves through `mazeAfterCarve`). -/
theorem multiple_path_loop_preserves (rand : Nat → Nat) :
    ∀ (n : Nat) (mz : Maze) (R : List (Coord × Coord × Dir)) (idx : Nat),
    Coherent mz → BordersClosed mz →
    Coherent (multiple_path_loop rand n mz R idx).1 ∧
    BordersClosed (multiple_path_loop rand n mz R idx).1 := by
  intro n
  induction n with
  | zero =>
    intro mz R idx hco hbo
    exact ⟨hco, hbo⟩
  | succ n ih =>
    intro mz R idx hco hbo
    cases R with
    | nil => exact ⟨hco, hbo⟩
    | cons r0 rtl =>
      simp only [multiple_path_loop]
      have hpr := mazeAfterCarve_preserves mz
        (((r0 :: rtl).getD (rand idx % (r0 :: rtl).length)
          ((0, 0), (0, 0), Dir.E)).1)
        (((r0 :: rtl).getD (rand idx % (r0 :: rtl).length)
          ((0, 0), (0, 0), Dir.E)).2.1)
      exact ih _ _ (idx + 1) (hpr.2.2.2.2.1 hco) (hpr.2.2.2.2.2.1 hbo)

/-- **C2.** For every valid `(width, height, entry, exit)` and any
seed, the generation pipeline of `get_state` — stencil marking, DFS
carving, optionally followed by the extra-connectivity pass — completes
(the DFS stack empties within the loop's fuel), and the resulting maze
passes both `wall_validator` and `closed_borders_validator`, in the
perfect and the imperfect variant alike. -/
theorem generation_completes_and_validates (height width : Int)
    (entry exit_ : Coord) (seed : Nat) (m0 : Maze)
    (hmk : Maze.make height width entry exit_ = Except.ok m0) :
    (dfs_loop (forty_two_marking m0) (randStream seed)
        (2 * ((m0.withGrid fun c =>
            if c ∈ forty_two_marking m0 then 15 else m0.grid c).width.toNat *
          (m0.withGrid fun c =>
            if c ∈ forty_two_marking m0 then 15 else m0.grid c).height.toNat) + 1)
        (m0.withGrid fun c =>
          if c ∈ forty_two_marking m0 then 15 else m0.grid c)
        [(m0.withGrid fun c =>
          if c ∈ forty_two_marking m0 then 15 else m0.grid c).entry]
        [(m0.withGrid fun c =>
          if c ∈ forty_two_marking m0 then 15 else m0.grid c).entry]
        0).2.1 = [] ∧
    wall_validator (dfs_maze_generator
        (m0.withGrid fun c =>
          if c ∈ forty_two_marking m0 then 15 else m0.grid c)
        (forty_two_marking m0) seed).1 = true ∧
    closed_borders_validator (dfs_maze_generator
        (m0.withGrid fun c =>
          if c ∈ forty_two_marking m0 then 15 else m0.grid c)
        (forty_two_marking m0) seed).1 = true ∧
    wall_validator (multiple_path_maze
        (dfs_maze_generator (m0.withGrid fun c =>
            if c ∈ forty_two_marking m0 then 15 else m0.grid c)
          (forty_two_marking m0) seed).1
        (forty_two_marking m0) (randStream seed)
        (dfs_maze_generator (m0.withGrid fun c =>
            if c ∈ forty_two_marking m0 then 15 else m0.grid c)
          (forty_two_marking m0) seed).2).1 = true ∧
    closed_borders_validator (multiple_path_maze
        (dfs_maze_generator (m0.withGrid fun c =>
            if c ∈ forty_two_marking m0 then 15 else m0.grid c)
          (forty_two_marking m0) seed).1
        (forty_two_marking m0) (randStream seed)
        (dfs_maze_generator (m0.withGrid fun c =>
            if c ∈ forty_two_marking m0 then 15 else m0.grid c)
          (forty_two_marking m0) seed).2).1 = true := by
  obtain ⟨hmw, hmh, hme, hmx, hmg, hw, hh, hbe, hbx, hex⟩ :=
    Maze.make_ok height width entry exit_ m0 hmk
  set forb := forty_two_marking m0 with hforb
  set m1 := m0.withGrid fun c => if c ∈ forb then 15 else m0.grid c
    with hm1
  have hg1 : ∀ c, m1.grid c = 15 := by
    intro c
    simp only [hm1, Maze.withGrid]
    split_ifs with hc
    · rfl
    · exact hmg c
  have hm1w : m1.width = width := hmw
  have hm1h : m1.height = height := hmh
  have hm1e : m1.entry = entry := hme
  obtain ⟨hco1, hbo1⟩ := const15_invariants m1 hg1
  have hbe1 : 0 ≤ entry.1 ∧ entry.1 < width ∧ 0 ≤ entry.2 ∧
      entry.2 < height := by
    have := (is_in_bounds_iff m0 entry).1 hbe
    rw [hmw, hmh] at this
    exact this
  have hN : 1 ≤ width.toNat * height.toNat := by
    have h1 : 1 ≤ width.toNat := by omega
    have h2 : 1 ≤ height.toNat := by omega
    exact Nat.one_le_iff_ne_zero.2 (by positivity)
  have hcomplete := dfs_loop_completes forb (randStream seed) width height
    (2 * (m1.width.toNat * m1.height.toNat) + 1) m1 [m1.entry] [m1.entry] 0
    hm1w hm1h (List.nodup_singleton _)
    (by
      intro v hv
      rw [List.mem_singleton] at hv
      subst hv
      rw [hm1e]
      exact hbe1)
    (fun s hs => hs)
    (by
      simp only [List.length_singleton, hm1w, hm1h]
      omega)
  have hvalid := dfs_loop_valid forb (randStream seed)
    (2 * (m1.width.toNat * m1.height.toNat) + 1) m1 [m1.entry] [m1.entry] 0
    hco1 hbo1
  have hgen : dfs_maze_generator m1 forb seed =
      ((dfs_loop forb (randStream seed)
        (2 * (m1.width.toNat * m1.height.toNat) + 1) m1 [m1.entry]
        [m1.entry] 0).1,
       (dfs_loop forb (randStream seed)
        (2 * (m1.width.toNat * m1.height.toNat) + 1) m1 [m1.entry]
        [m1.entry] 0).2.2.2) := rfl
  have hmp := multiple_path_loop_preserves (randStream seed)
    (min (max 1 (((dfs_maze_generator m1 forb seed).1.width *
        (dfs_maze_generator m1 forb seed).1.height).fdiv 25).toNat)
      (candidatePairs (dfs_maze_generator m1 forb seed).1 forb).length)
    (dfs_maze_generator m1 forb seed).1
    (candidatePairs (dfs_maze_generator m1 forb seed).1 forb)
    (dfs_maze_generator m1 forb seed).2
    (by rw [hgen]; exact hvalid.2.2.2.2.1)
    (by rw [hgen]; exact hvalid.2.2.2.2.2)
  refine ⟨hcomplete, ?_, ?_, ?_, ?_⟩
  · rw [hgen, wall_validator_iff]
    exact hvalid.2.2.2.2.1
  · rw [hgen, closed_borders_validator_iff]
    exact hvalid.2.2.2.2.2
  · rw [wall_validator_iff]
    exact hmp.1
  · rw [closed_borders_validator_iff]
    exact hmp.2

/-- Witness for C2: the spec's concrete scenario `width=5, height=5,
entry=(0,0), exit=(4,4), seed=42` — construction succeeds and the
carved maze passes the wall-coherence and closed-border validators. -/
theorem generation_completes_and_validates_witness :
    (let m0 : Maze := { width := 5, height := 5, entry := (0, 0),
                        exit := (4, 4), grid := fun _ => 15 }
     Maze.make 5 5 (0, 0) (4, 4) = Except.ok m0 ∧
     wall_validator (dfs_maze_generator
        (m0.withGrid fun c =>
          if c ∈ forty_two_marking m0 then 15 else m0.grid c)
        (forty_two_marking m0) 42).1 = true ∧
     closed_borders_validator (dfs_maze_generator
        (m0.withGrid fun c =>
          if c ∈ forty_two_marking m0 then 15 else m0.grid c)
        (forty_two_marking m0) 42).1 = true) := by
  refine ⟨rfl, ?_, ?_⟩
  · exact (generation_completes_and_validates 5 5 (0, 0) (4, 4) 42 _
      rfl).2.1
  · exact (generation_completes_and_validates 5 5 (0, 0) (4, 4) 42 _
      rfl).2.2.1

/-- **C3.** Two runs of the generation-plus-connectivity pipeline with
identical width, height, entry, exit, seed (hence identical
forbidden-cell set, which the pipeline computes from these inputs) and
perfect flag produce bit-identical grids: the dimensions agree and every
cell's wall mask is equal across the two runs.  Randomness is confined
to the single seeded stream `randStream seed`, consumed in a fixed
order, so the embedded pipeline is a pure function of its inputs. -/
theorem generation_deterministic (height width : Int) (entry exit_ : Coord)
    (seed : Nat) (perfect : Bool) (m1 m2 : Maze)
    (h1 : get_state_maze height width entry exit_ seed perfect =
      Except.ok m1)
    (h2 : get_state_maze height width entry exit_ seed perfect =
      Except.ok m2) :
    m1.width = m2.width ∧ m1.height = m2.height ∧
    ∀ c, m1.grid c = m2.grid c := by
  have h := h1.symm.trans h2
  rw [Except.ok.injEq] at h
  subst h
  exact ⟨rfl, rfl, fun _ => rfl⟩

/-- Witness for C3: two runs at `5×5, entry (0,0), exit (4,4), seed 42,
perfect` agree on the wall mask of cell `(0,0)`. -/
theorem generation_deterministic_witness :
    (let r := get_state_maze 5 5 (0, 0) (4, 4) 42 true
     let mdef : Maze := { width := 5, height := 5, entry := (0, 0),
                          exit := (4, 4), grid := fun _ => 15 }
     let mres := r.toOption.getD mdef
     r = Except.ok mres ∧ mres.grid (0, 0) = mres.grid (0, 0)) := by
  have hok : (get_state_maze 5 5 (0, 0) (4, 4) 42 true).isOk = true := by
    decide
  cases hr : get_state_maze 5 5 (0, 0) (4, 4) 42 true with
  | error e =>
    rw [hr] at hok
    cases hok
  | ok m =>
    exact ⟨rfl, (generation_deterministic 5 5 (0, 0) (4, 4) 42 true m m
      hr hr).2.2 (0, 0)⟩

/-! ## BFS shortest-path solver
(`maze_files/bfs_shortest_path_solver.py`)

The solver's three locals — `visited_coords` (a set, embedded as a
duplicate-free list in insertion order), `coords_to_visit` (the FIFO
deque) and `path_family_tree` (the child → parent dict, embedded as a
partial map) — form the loop state. -/

/-- `openMove` determines its target. -/
theorem openMove_target (m : Maze) (c : Coord) (d : Dir) (nc : Coord)
    (h : openMove m c d nc) :
    nc = (c.1 + (DIR_MOVE_DELTA d).1, c.2 + (DIR_MOVE_DELTA d).2) := h.1

/-- A single `bfs_enqueue` step preserves the mid-processing shape and
guarantees that the examined direction's open non-forbidden neighbor
ends up visited. -/
theorem bfs_enqueue_mid (m : Maze) (forb : List Coord) (V0 : List Coord)
    (tree0 : Coord → Option (Option Coord)) (cur : Coord)
    (rest new : List Coord) (stM : BfsState) (d : Dir)
    (hmid : BfsMid m forb V0 tree0 cur rest new stM) :
    ∃ new', BfsMid m forb V0 tree0 cur rest new'
        (bfs_enqueue m forb cur (m.grid cur) stM d) ∧
      (∀ u, openMove m cur d u → u ∉ forb →
        u ∈ (bfs_enqueue m forb cur (m.grid cur) stM d).visited) ∧
      (∀ u ∈ stM.visited,
        u ∈ (bfs_enqueue m forb cur (m.grid cur) stM d).visited) ∧
      new.Sublist new' := by
  obtain ⟨hv, hq, ht, hnd, hprops⟩ := hmid
  by_cases hb : 0 ≤ cur.1 + (DIR_MOVE_DELTA d).1 ∧
      cur.1 + (DIR_MOVE_DELTA d).1 < m.width ∧
      0 ≤ cur.2 + (DIR_MOVE_DELTA d).2 ∧
      cur.2 + (DIR_MOVE_DELTA d).2 < m.height
  · by_cases hw : is_it_solid_wall (m.grid cur) (DIR_BIT_VALUE d) = false
    · by_cases hfresh :
          ((cur.1 + (DIR_MOVE_DELTA d).1, cur.2 + (DIR_MOVE_DELTA d).2) :
            Coord) ∉ stM.visited ∧
          ((cur.1 + (DIR_MOVE_DELTA d).1, cur.2 + (DIR_MOVE_DELTA d).2) :
            Coord) ∉ forb
      · -- neighbor admitted
        have hst' : bfs_enqueue m forb cur (m.grid cur) stM d =
            { visited := stM.visited ++
                [(cur.1 + (DIR_MOVE_DELTA d).1,
                  cur.2 + (DIR_MOVE_DELTA d).2)],
              queue := stM.queue ++
                [(cur.1 + (DIR_MOVE_DELTA d).1,
                  cur.2 + (DIR_MOVE_DELTA d).2)],
              tree := fun c =>
                if c = (cur.1 + (DIR_MOVE_DELTA d).1,
                    cur.2 + (DIR_MOVE_DELTA d).2) then some (some cur)
                else stM.tree c } := by
          rw [bfs_enqueue]
          rw [if_pos hb, if_pos hw, if_pos hfresh]
        set nc : Coord := (cur.1 + (DIR_MOVE_DELTA d).1,
          cur.2 + (DIR_MOVE_DELTA d).2) with hnc
        have hncnew : nc ∉ new := fun hmem =>
          hfresh.1 (by rw [hv]; exact List.mem_append_right _ hmem)
        have hncV0 : nc ∉ V0 := fun hmem =>
          hfresh.1 (by rw [hv]; exact List.mem_append_left _ hmem)
        refine ⟨new ++ [nc], ⟨?_, ?_, ?_, ?_, ?_⟩, ?_, ?_, ?_⟩
        · rw [hst']
          simp only [hv, List.append_assoc]
        · rw [hst']
          simp only [hq, List.append_assoc]
        · intro c
          rw [hst']
          simp only
          by_cases hc : c = nc
          · subst hc
            rw [if_pos rfl, if_pos (by simp)]
          · rw [if_neg hc, ht c]
            by_cases hcn : c ∈ new
            · rw [if_pos hcn, if_pos (by simp [hcn])]
            · rw [if_neg hcn, if_neg (by simp [hcn, hc])]
        · rw [List.nodup_append]
          exact ⟨hnd, List.nodup_singleton _,
            fun a ha hb' => by
              rw [List.mem_singleton] at hb'
              subst hb'
              exact hncnew ha⟩
        · intro u hu
          rcases List.mem_append.1 hu with hu | hu
          · exact hprops u hu
          · rw [List.mem_singleton] at hu
            subst hu
            exact ⟨hncV0, hfresh.2, d, rfl, hb.1, hb.2.1, hb.2.2.1,
              hb.2.2.2, hw⟩
        · intro u ho _
          rw [hst']
          simp only
          rw [openMove_target m cur d u ho]
          exact List.mem_append_right _ (List.mem_singleton_self _)
        · intro u hu
          rw [hst']
          exact List.mem_append_left _ hu
        · exact List.sublist_append_left _ _
      · -- already visited or forbidden
        have hst' : bfs_enqueue m forb cur (m.grid cur) stM d = stM := by
          rw [bfs_enqueue]
          rw [if_pos hb, if_pos hw, if_neg hfresh]
        rw [hst']
        refine ⟨new, ⟨hv, hq, ht, hnd, hprops⟩, ?_, fun u hu => hu,
          List.Sublist.refl _⟩
        intro u ho hf
        rw [not_and_or, not_not, not_not] at hfresh
        rw [openMove_target m cur d u ho] at hf ⊢
        rcases hfresh with hfresh | hfresh
        · exact hfresh
        · exact absurd hfresh hf
    · -- wall closed
      have hst' : bfs_enqueue m forb cur (m.grid cur) stM d = stM := by
        rw [bfs_enqueue]
        rw [if_pos hb, if_neg hw]
      rw [hst']
      refine ⟨new, ⟨hv, hq, ht, hnd, hprops⟩, ?_, fun u hu => hu,
        List.Sublist.refl _⟩
      intro u ho _
      exact absurd ho.2.2.2.2.2 hw
  · -- out of bounds
    have hst' : bfs_enqueue m forb cur (m.grid cur) stM d = stM := by
      rw [bfs_enqueue]
      rw [if_neg hb]
    rw [hst']
    refine ⟨new, ⟨hv, hq, ht, hnd, hprops⟩, ?_, fun u hu => hu,
      List.Sublist.refl _⟩
    intro u ho _
    obtain ⟨he, h1, h2, h3, h4, _⟩ := ho
    rw [he] at h1 h2 h3 h4
    exact absurd ⟨h1, h2, h3, h4⟩ hb

/-- Processing a dequeued cell yields a mid-shaped state in which every
open non-forbidden neighbor of the cell is visited. -/
theorem bfs_process_mid (m : Maze) (forb : List Coord) (cur : Coord)
    (V0 rest : List Coord) (tree0 : Coord → Option (Option Coord)) :
    ∃ new, BfsMid m forb V0 tree0 cur rest new
        (bfs_process m forb cur ⟨V0, rest, tree0⟩) ∧
      (∀ d u, openMove m cur d u → u ∉ forb →
        u ∈ (bfs_process m forb cur ⟨V0, rest, tree0⟩).visited) := by
  have hmid0 : BfsMid m forb V0 tree0 cur rest []
      (⟨V0, rest, tree0⟩ : BfsState) := by
    refine ⟨by simp, by simp, fun c => by simp, List.nodup_nil, ?_⟩
    intro u hu
    cases hu
  obtain ⟨n1, hm1, hc1N, hk1, hs1⟩ :=
    bfs_enqueue_mid m forb V0 tree0 cur rest [] _ Dir.N hmid0
  obtain ⟨n2, hm2, hc2E, hk2, hs2⟩ :=
    bfs_enqueue_mid m forb V0 tree0 cur rest n1 _ Dir.E hm1
  obtain ⟨n3, hm3, hc3S, hk3, hs3⟩ :=
    bfs_enqueue_mid m forb V0 tree0 cur rest n2 _ Dir.S hm2
  obtain ⟨n4, hm4, hc4W, hk4, hs4⟩ :=
    bfs_enqueue_mid m forb V0 tree0 cur rest n3 _ Dir.W hm3
  have hproc : bfs_process m forb cur ⟨V0, rest, tree0⟩ =
      bfs_enqueue m forb cur (m.grid cur)
        (bfs_enqueue m forb cur (m.grid cur)
          (bfs_enqueue m forb cur (m.grid cur)
            (bfs_enqueue m forb cur (m.grid cur)
              ⟨V0, rest, tree0⟩ Dir.N) Dir.E) Dir.S) Dir.W := rfl
  rw [hproc]
  refine ⟨n4, hm4, ?_⟩
  intro d u ho hf
  cases d with
  | N => exact hk4 _ (hk3 _ (hk2 _ (hc1N u ho hf)))
  | E => exact hk4 _ (hk3 _ (hc2E u ho hf))
  | S => exact hk4 _ (hc3S u ho hf)
  | W => exact hc4W u ho hf

/-- The heart of the BFS proof: processing the head of the queue
re-establishes the loop invariant, extending the ghost depths so every
newly admitted cell sits one level below the processed cell. -/
theorem bfs_step_inv (m : Maze) (forb : List Coord) (st0 : BfsState)
    (D0 : Coord → Nat) (hInv : BfsInv m forb st0 D0) (cur : Coord)
    (rest : List Coord) (hq0 : st0.queue = cur :: rest)
    (new : List Coord) (st4 : BfsState)
    (hmid : BfsMid m forb st0.visited st0.tree cur rest new st4)
    (hcov : ∀ d u, openMove m cur d u → u ∉ forb → u ∈ st4.visited) :
    BfsInv m forb st4 (fun c => if c ∈ new then D0 cur + 1 else D0 c) ∧
    (∀ c ∈ st0.visited,
      (if c ∈ new then D0 cur + 1 else D0 c) = D0 c) := by
  obtain ⟨hv, hq, ht, hndnew, hprops⟩ := hmid
  set D4 : Coord → Nat := fun c => if c ∈ new then D0 cur + 1 else D0 c
    with hD4
  have hcurQ : cur ∈ st0.queue := by
    rw [hq0]
    exact List.mem_cons_self _ _
  have hcur : cur ∈ st0.visited := hInv.queue_sub cur hcurQ
  have hnewV0 : ∀ c ∈ new, c ∉ st0.visited := fun c hc => (hprops c hc).1
  have hD4old : ∀ c ∈ st0.visited, D4 c = D0 c := by
    intro c hc
    rw [hD4]
    simp only
    rw [if_neg (fun hn => hnewV0 c hn hc)]
  have hD4new : ∀ c ∈ new, D4 c = D0 cur + 1 := by
    intro c hc
    rw [hD4]
    simp only
    rw [if_pos hc]
  have hrest0 : ∀ q ∈ rest, q ∈ st0.queue := by
    intro q hqm
    rw [hq0]
    exact List.mem_cons_of_mem _ hqm
  have hrestV : ∀ q ∈ rest, q ∈ st0.visited := fun q hqm =>
    hInv.queue_sub q (hrest0 q hqm)
  have hD4rest : ∀ q ∈ rest, D4 q = D0 q := fun q hqm =>
    hD4old q (hrestV q hqm)
  have hhead : ∀ b ∈ rest, D0 cur ≤ D0 b := by
    have := hInv.queue_pairwise
    rw [hq0, List.pairwise_cons] at this
    exact this.1
  have memV4 : ∀ c, c ∈ st4.visited ↔ c ∈ st0.visited ∨ c ∈ new := by
    intro c
    rw [hv, List.mem_append]
  have memQ4 : ∀ c, c ∈ st4.queue ↔ c ∈ rest ∨ c ∈ new := by
    intro c
    rw [hq, List.mem_append]
  have hdistmin4 : ∀ c ∈ st4.visited, ∀ n, ReachN m forb n c →
      D4 c ≤ n := by
    intro c hc n hr
    rcases (memV4 c).1 hc with hcV | hcN
    · rw [hD4old c hcV]
      exact hInv.dist_min c hcV n hr
    · rw [hD4new c hcN]
      by_contra hlt
      have hn : n ≤ D0 cur := by omega
      obtain ⟨hcV0', hcF, -⟩ := hprops c hcN
      cases hr with
      | entry => exact hcV0' hInv.entry_mem
      | step d hw ho hf =>
        rename_i k w
        by_cases hwV : w ∈ st0.visited
        · by_cases hwQ : w ∈ st0.queue
          · have hDw : D0 w ≤ k := hInv.dist_min w hwV k hw
            have hcw : D0 cur ≤ D0 w := by
              rw [hq0] at hwQ
              rcases List.mem_cons.1 hwQ with hwc | hwr
              · rw [hwc]
              · exact hhead w hwr
            omega
          · exact hcV0' (hInv.proc_closed w hwV hwQ d c ho hcF)
        · have := hInv.far w hwV k hw cur hcurQ
          omega
  have hfar4 : ∀ n, ∀ u, u ∉ st4.visited → ReachN m forb n u →
      ∀ q ∈ st4.queue, D4 q ≤ n := by
    intro n
    induction n using Nat.strong_induction_on with
    | _ n ih =>
      intro u hu hr q hqmem
      cases hr with
      | entry => exact absurd ((memV4 m.entry).2 (Or.inl hInv.entry_mem)) hu
      | step d hw ho hf =>
        rename_i k w
        by_cases hwV4 : w ∈ st4.visited
        · rcases (memV4 w).1 hwV4 with hwV | hwN
          · by_cases hwc : w = cur
            · subst hwc
              exact absurd (hcov d u ho hf) hu
            · by_cases hwQ : w ∈ st0.queue
              · have hwrest : w ∈ rest := by
                  rw [hq0] at hwQ
                  rcases List.mem_cons.1 hwQ with h | h
                  · exact absurd h hwc
                  · exact h
                have hDw : D0 w ≤ k := hInv.dist_min w hwV k hw
                rcases (memQ4 q).1 hqmem with hqr | hqn
                · rw [hD4rest q hqr]
                  have := hInv.queue_spread q (hrest0 q hqr) w
                    (hrest0 w hwrest)
                  omega
                · rw [hD4new q hqn]
                  have := hhead w hwrest
                  omega
              · exact absurd ((memV4 u).2
                  (Or.inl (hInv.proc_closed w hwV hwQ d u ho hf))) hu
          · have hDw := hdistmin4 w ((memV4 w).2 (Or.inr hwN)) k hw
            rw [hD4new w hwN] at hDw
            rcases (memQ4 q).1 hqmem with hqr | hqn
            · rw [hD4rest q hqr]
              have := hInv.queue_spread q (hrest0 q hqr) cur hcurQ
              omega
            · rw [hD4new q hqn]
              omega
        · have := ih k (by omega) w hwV4 hw q hqmem
          omega
  refine ⟨⟨?_, ?_, ?_, ?_, ?_, ?_, ?_, ?_, ?_, ?_, ?_, hdistmin4, ?_, ?_,
    ?_, fun u hu n hr q hqm => hfar4 n u hu hr q hqm⟩, hD4old⟩
  · -- nodup
    rw [hv, List.nodup_append]
    exact ⟨hInv.nodup, hndnew, fun a ha hb => hnewV0 a hb ha⟩
  · -- entry_mem
    exact (memV4 m.entry).2 (Or.inl hInv.entry_mem)
  · -- keys
    intro c
    rw [ht c, memV4 c]
    by_cases hc : c ∈ new
    · rw [if_pos hc]
      simp [hc]
    · rw [if_neg hc]
      rw [hInv.keys c]
      simp [hc]
  · -- tree_entry
    rw [ht m.entry, if_neg (fun hn => hnewV0 m.entry hn hInv.entry_mem)]
    exact hInv.tree_entry
  · -- entry_depth
    rw [hD4old m.entry hInv.entry_mem]
    exact hInv.entry_depth
  · -- tree_link
    intro c p hcp
    rw [ht c] at hcp
    by_cases hc : c ∈ new
    · rw [if_pos hc] at hcp
      obtain ⟨-, hcF, d, hd⟩ := hprops c hc
      have hpc : p = cur := by
        injection hcp with hcp
        injection hcp with hcp
        exact hcp.symm
      subst hpc
      exact ⟨(memV4 p).2 (Or.inl hcur), ⟨d, hd⟩, hcF,
        by rw [hD4new c hc, hD4old p hcur]⟩
    · rw [if_neg hc] at hcp
      obtain ⟨hpV, hop, hcF, hD⟩ := hInv.tree_link c p hcp
      refine ⟨(memV4 p).2 (Or.inl hpV), hop, hcF, ?_⟩
      rw [hD4old p hpV, hD4]
      simp only
      rw [if_neg hc]
      exact hD
  · -- tree_none
    intro c hcn
    rw [ht c] at hcn
    by_cases hc : c ∈ new
    · rw [if_pos hc] at hcn
      injection hcn with hcn
      cases hcn
    · rw [if_neg hc] at hcn
      exact hInv.tree_none c hcn
  · -- queue_sub
    intro c hc
    rcases (memQ4 c).1 hc with hc | hc
    · exact (memV4 c).2 (Or.inl (hrestV c hc))
    · exact (memV4 c).2 (Or.inr hc)
  · -- bounds
    intro c hc
    rcases (memV4 c).1 hc with hc | hc
    · exact hInv.bounds c hc
    · obtain ⟨-, -, d, hd⟩ := hprops c hc
      exact ⟨hd.2.1, hd.2.2.1, hd.2.2.2.1, hd.2.2.2.2.1⟩
  · -- depth_lt
    intro c hc
    have hlen : st4.visited.length = st0.visited.length + new.length := by
      rw [hv, List.length_append]
    rcases (memV4 c).1 hc with hcV | hcN
    · rw [hD4old c hcV]
      have := hInv.depth_lt c hcV
      omega
    · rw [hD4new c hcN]
      have h1 := hInv.depth_lt cur hcur
      have h2 : 1 ≤ new.length := List.length_pos.2 (fun he => by
        rw [he] at hcN
        cases hcN)
      omega
  · -- dist_sound
    intro c hc
    rcases (memV4 c).1 hc with hcV | hcN
    · rw [hD4old c hcV]
      exact hInv.dist_sound c hcV
    · rw [hD4new c hcN]
      obtain ⟨-, hcF, d, hd⟩ := hprops c hcN
      exact ReachN.step d (hInv.dist_sound cur hcur) hd hcF
  · -- queue_pairwise
    rw [hq, List.pairwise_append]
    refine ⟨?_, ?_, ?_⟩
    · have htail : List.Pairwise (fun a b => D0 a ≤ D0 b) rest := by
        have := hInv.queue_pairwise
        rw [hq0, List.pairwise_cons] at this
        exact this.2
      exact htail.imp_of_mem fun ha hb h => by
        rw [hD4rest _ ha, hD4rest _ hb]
        exact h
    · exact hndnew.imp_of_mem fun ha hb _ => by
        rw [hD4new _ ha, hD4new _ hb]
    · intro a ha b hb
      rw [hD4rest a ha, hD4new b hb]
      exact hInv.queue_spread a (hrest0 a ha) cur hcurQ
  · -- queue_spread
    intro a ha b hb
    rcases (memQ4 a).1 ha with ha' | ha' <;>
      rcases (memQ4 b).1 hb with hb' | hb'
    · rw [hD4rest a ha', hD4rest b hb']
      exact hInv.queue_spread a (hrest0 a ha') b (hrest0 b hb')
    · rw [hD4rest a ha', hD4new b hb']
      have := hInv.queue_spread a (hrest0 a ha') cur hcurQ
      omega
    · rw [hD4new a ha', hD4rest b hb']
      have := hhead b hb'
      omega
    · rw [hD4new a ha', hD4new b hb']
      omega
  · -- proc_closed
    intro w hwV4 hwQ4 d u ho hf
    rcases (memV4 w).1 hwV4 with hwV | hwN
    · by_cases hwc : w = cur
      · subst hwc
        exact hcov d u ho hf
      · have hwQ0 : w ∉ st0.queue := by
          rw [hq0]
          intro hmem
          rcases List.mem_cons.1 hmem with h | h
          · exact hwc h
          · exact hwQ4 ((memQ4 w).2 (Or.inl h))
        exact (memV4 u).2 (Or.inl (hInv.proc_closed w hwV hwQ0 d u ho hf))
    · exact absurd ((memQ4 w).2 (Or.inr hwN)) hwQ4

/-- The initial solver state satisfies the invariant with all depths 0,
provided the entry is in bounds. -/
theorem bfs_init_inv (m : Maze) (forb : List Coord)
    (hbe : 0 ≤ m.entry.1 ∧ m.entry.1 < m.width ∧ 0 ≤ m.entry.2 ∧
      m.entry.2 < m.height) :
    BfsInv m forb (bfs_init m) (fun _ => 0) := by
  refine ⟨List.nodup_singleton _, List.mem_singleton_self _, ?_, ?_, rfl,
    ?_, ?_, ?_, ?_, ?_, ?_, ?_, ?_, ?_, ?_, ?_⟩
  · intro c
    simp only [bfs_init, List.mem_singleton]
    by_cases hc : c = m.entry <;> simp [hc]
  · simp [bfs_init]
  · intro c p hcp
    simp only [bfs_init] at hcp
    split_ifs at hcp <;> cases hcp
  · intro c hcn
    simp only [bfs_init] at hcn
    split_ifs at hcn with hc
    exact hc
  · intro c hc
    exact hc
  · intro c hc
    simp only [bfs_init, List.mem_singleton] at hc
    subst hc
    exact hbe
  · intro c hc
    simp [bfs_init]
  · intro c hc
    simp only [bfs_init, List.mem_singleton] at hc
    subst hc
    exact ReachN.entry
  · intro c _ n _
    exact Nat.zero_le n
  · simp [bfs_init]
  · intro a _ b _
    omega
  · intro w hw hwq
    simp only [bfs_init, List.mem_singleton] at hw hwq
    exact absurd hw hwq
  · intro u _ n _ q hq
    exact Nat.zero_le n

/-- The BFS loop preserves the invariant up to an extension of the ghost
depths, and only ever grows the visited list. -/
theorem bfs_loop_inv (m : Maze) (forb : List Coord) :
    ∀ (fuel : Nat) (st : BfsState) (D : Coord → Nat),
    BfsInv m forb st D →
    ∃ D' : Coord → Nat, (∀ c ∈ st.visited, D' c = D c) ∧
      (∀ c ∈ st.visited, c ∈ (bfs_loop m forb fuel st).visited) ∧
      BfsInv m forb (bfs_loop m forb fuel st) D' := by
  intro fuel
  induction fuel with
  | zero =>
    intro st D hInv
    exact ⟨D, fun _ _ => rfl, fun _ hc => hc, hInv⟩
  | succ fuel ih =>
    intro st D hInv
    cases hqe : st.queue with
    | nil =>
      have hred : bfs_loop m forb (fuel + 1) st = st := by
        simp only [bfs_loop, hqe]
      rw [hred]
      exact ⟨D, fun _ _ => rfl, fun _ hc => hc, hInv⟩
    | cons cur rest =>
      by_cases hce : cur = m.exit
      · have hred : bfs_loop m forb (fuel + 1) st = st := by
          simp only [bfs_loop, hqe, if_pos hce]
        rw [hred]
        exact ⟨D, fun _ _ => rfl, fun _ hc => hc, hInv⟩
      · obtain ⟨new, hmid, hcov⟩ := bfs_process_mid m forb cur st.visited
          rest st.tree
        obtain ⟨hInv4, hagree4⟩ := bfs_step_inv m forb st D hInv cur rest
          hqe new _ hmid hcov
        obtain ⟨D', hagree, hmono, hInvF⟩ := ih
          (bfs_process m forb cur ⟨st.visited, rest, st.tree⟩)
          (fun c => if c ∈ new then D cur + 1 else D c) hInv4
        have hV4 : (bfs_process m forb cur
            ⟨st.visited, rest, st.tree⟩).visited = st.visited ++ new :=
          hmid.1
        have hstep : bfs_loop m forb (fuel + 1) st =
            bfs_loop m forb fuel
              (bfs_process m forb cur ⟨st.visited, rest, st.tree⟩) := by
          simp only [bfs_loop, hqe, if_neg hce]
        rw [hstep]
        refine ⟨D', ?_, ?_, hInvF⟩
        · intro c hc
          rw [hagree c (by rw [hV4]; exact List.mem_append_left _ hc)]
          exact hagree4 c hc
        · intro c hc
          exact hmono c (by rw [hV4]; exact List.mem_append_left _ hc)

/-- The BFS loop reaches a terminal state — empty queue or the exit at
the queue's head — given fuel above the measure
`2·(cells − |visited|) + |queue|`. -/
theorem bfs_loop_term (m : Maze) (forb : List Coord) :
    ∀ (fuel : Nat) (st : BfsState),
    st.visited.Nodup →
    (∀ c ∈ st.visited, 0 ≤ c.1 ∧ c.1 < m.width ∧ 0 ≤ c.2 ∧
      c.2 < m.height) →
    (∀ c ∈ st.queue, c ∈ st.visited) →
    2 * (m.width.toNat * m.height.toNat - st.visited.length) +
      st.queue.length < fuel →
    (bfs_loop m forb fuel st).queue = [] ∨
      ∃ rest', (bfs_loop m forb fuel st).queue = m.exit :: rest' := by
  intro fuel
  induction fuel with
  | zero =>
    intro st _ _ _ hfuel
    exact absurd hfuel (by omega)
  | succ fuel ih =>
    intro st hnd hb hqs hfuel
    cases hqe : st.queue with
    | nil =>
      left
      simp only [bfs_loop, hqe]
    | cons cur rest =>
      by_cases hce : cur = m.exit
      · right
        refine ⟨rest, ?_⟩
        simp only [bfs_loop, hqe, if_pos hce]
        rw [hce]
      · obtain ⟨new, hmid, -⟩ := bfs_process_mid m forb cur st.visited
          rest st.tree
        obtain ⟨hv, hq, -, hndnew, hprops⟩ := hmid
        have hstep : bfs_loop m forb (fuel + 1) st =
            bfs_loop m forb fuel
              (bfs_process m forb cur ⟨st.visited, rest, st.tree⟩) := by
          simp only [bfs_loop, hqe, if_neg hce]
        rw [hstep]
        have hnd4 : (bfs_process m forb cur
            ⟨st.visited, rest, st.tree⟩).visited.Nodup := by
          rw [hv, List.nodup_append]
          exact ⟨hnd, hndnew, fun a ha hb' => (hprops a hb').1 ha⟩
        have hb4 : ∀ c ∈ (bfs_process m forb cur
            ⟨st.visited, rest, st.tree⟩).visited,
            0 ≤ c.1 ∧ c.1 < m.width ∧ 0 ≤ c.2 ∧ c.2 < m.height := by
          intro c hc
          rw [hv, List.mem_append] at hc
          rcases hc with hc | hc
          · exact hb c hc
          · obtain ⟨-, -, d, hd⟩ := hprops c hc
            exact ⟨hd.2.1, hd.2.2.1, hd.2.2.2.1, hd.2.2.2.2.1⟩
        have hqs4 : ∀ c ∈ (bfs_process m forb cur
            ⟨st.visited, rest, st.tree⟩).queue,
            c ∈ (bfs_process m forb cur
              ⟨st.visited, rest, st.tree⟩).visited := by
          intro c hc
          rw [hq, List.mem_append] at hc
          rw [hv, List.mem_append]
          rcases hc with hc | hc
          · exact Or.inl (hqs c (by rw [hqe]; exact List.mem_cons_of_mem _ hc))
          · exact Or.inr hc
        have hvlen4 : (bfs_process m forb cur
            ⟨st.visited, rest, st.tree⟩).visited.length ≤
            m.width.toNat * m.height.toNat :=
          length_le_numCells m.width m.height _ hnd4 hb4
        refine ih _ hnd4 hb4 hqs4 ?_
        rw [hv, hq, List.length_append, List.length_append]
        rw [hqe] at hfuel
        simp only [List.length_cons] at hfuel
        rw [hv, List.length_append] at hvlen4
        omega

/-- With an empty queue the invariant's closure makes every reachable
cell visited. -/
theorem reach_visited (m : Maze) (forb : List Coord) (st : BfsState)
    (D : Coord → Nat) (hInv : BfsInv m forb st D) (hqe : st.queue = []) :
    ∀ n c, ReachN m forb n c → c ∈ st.visited := by
  intro n c hr
  induction hr with
  | entry => exact hInv.entry_mem
  | step d h ho hf ihh =>
    refine hInv.proc_closed _ ihh ?_ d _ ho hf
    rw [hqe]
    intro hmem
    cases hmem

/-- Walking the parent links from a visited cell of depth `k` produces,
inside the given fuel, the exit-to-entry chain: `k + 1` cells starting
at the cell and ending at the entry, consecutive cells joined by a
backwards open move, all visited, all but the entry non-forbidden. -/
theorem backtrace_spec (m : Maze) (forb : List Coord) (st : BfsState)
    (D : Coord → Nat) (hInv : BfsInv m forb st D) :
    ∀ (k : Nat) (c : Coord), c ∈ st.visited → D c = k →
    ∀ fuel, k + 1 ≤ fuel → ∀ acc,
    ∃ chain, backtrace_loop st.tree fuel c acc = some (acc ++ chain) ∧
      chain.head? = some c ∧ chain.getLast? = some m.entry ∧
      chain.length = k + 1 ∧
      List.Chain' (fun a b => ∃ d, openMove m b d a) chain ∧
      (∀ x ∈ chain, x ∈ st.visited) ∧
      (∀ x ∈ chain, x = m.entry ∨ x ∉ forb) := by
  intro k
  induction k using Nat.strong_induction_on with
  | _ k ih =>
    intro c hcV hck fuel hfuel acc
    obtain ⟨fuel', rfl⟩ : ∃ fuel', fuel = fuel' + 1 :=
      ⟨fuel - 1, by omega⟩
    have hsome : (st.tree c).isSome = true := (hInv.keys c).2 hcV
    cases htc : st.tree c with
    | none => rw [htc] at hsome; cases hsome
    | some v =>
      cases v with
      | none =>
        have hce : c = m.entry := hInv.tree_none c htc
        have hk0 : k = 0 := by
          rw [← hck, hce]
          exact hInv.entry_depth
        subst hk0
        refine ⟨[c], ?_, rfl, by rw [hce]; rfl, rfl, ?_, ?_, ?_⟩
        · rw [backtrace_loop, htc]
        · exact List.chain'_singleton c
        · intro x hx
          rw [List.mem_singleton] at hx
          subst hx
          exact hcV
        · intro x hx
          rw [List.mem_singleton] at hx
          subst hx
          exact Or.inl hce
      | some p =>
        obtain ⟨hpV, hop, hcF, hD⟩ := hInv.tree_link c p htc
        have hk : k = D p + 1 := by rw [← hck, hD]
        have hrec := ih (D p) (by omega) p hpV rfl fuel' (by omega)
          (acc ++ [c])
        obtain ⟨chain', hbt, hhd, hlast, hlen, hchain, hmem, hforb⟩ := hrec
        refine ⟨c :: chain', ?_, rfl, ?_, ?_, ?_, ?_, ?_⟩
        · rw [backtrace_loop, htc]
          show backtrace_loop st.tree fuel' p (acc ++ [c]) =
            some (acc ++ c :: chain')
          rw [hbt, List.append_assoc]
          rfl
        · cases chain' with
          | nil => cases hhd
          | cons a t =>
            rw [List.getLast?_cons_cons]
            exact hlast
        · simp only [List.length_cons, hlen]
          omega
        · rw [List.chain'_cons']
          refine ⟨?_, hchain⟩
          intro h hh
          rw [hhd] at hh
          cases hh
          exact ⟨_, hop.choose_spec⟩
        · intro x hx
          rcases List.mem_cons.1 hx with hx | hx
          · subst hx
            exact hcV
          · exact hmem x hx
        · intro x hx
          rcases List.mem_cons.1 hx with hx | hx
          · subst hx
            exact Or.inr hcF
          · exact hforb x hx

/-- Replaying a valid open chain from a reached cell extends
reachability to the chain's last element. -/
theorem chain_reach (m : Maze) (forb : List Coord) :
    ∀ (rest : List Coord) (c : Coord) (n : Nat), ReachN m forb n c →
    List.Chain' (fun c1 c2 => ∃ d, openMove m c1 d c2) (c :: rest) →
    (∀ x ∈ rest, x ∉ forb) →
    ∀ l, (c :: rest).getLast? = some l → ReachN m forb (n + rest.length) l := by
  intro rest
  induction rest with
  | nil =>
    intro c n hr _ _ l hl
    cases hl
    exact hr
  | cons c2 t ihh =>
    intro c n hr hchain hforb l hl
    rw [List.chain'_cons] at hchain
    obtain ⟨⟨d, hd⟩, hchain'⟩ := hchain
    have hr2 : ReachN m forb (n + 1) c2 :=
      ReachN.step d hr hd (hforb c2 (List.mem_cons_self _ _))
    have hl' : (c2 :: t).getLast? = some l := by
      rw [List.getLast?_cons_cons] at hl
      exact hl
    have := ihh c2 (n + 1) hr2 hchain'
      (fun x hx => hforb x (List.mem_cons_of_mem _ hx)) l hl'
    simpa [Nat.add_comm, Nat.add_assoc, Nat.add_left_comm] using this

/-- A claim-side valid path witnesses reachability of the exit in
`length − 1` steps. -/
theorem validPath_reach (m : Maze) (forb : List Coord) (p : List Coord)
    (hp : ValidPath m forb p) : ReachN m forb (p.length - 1) m.exit := by
  obtain ⟨hhd, hlast, hchain, hforb⟩ := hp
  cases p with
  | nil => cases hhd
  | cons a rest =>
    have ha : a = m.entry := by
      injection hhd
    subst ha
    have := chain_reach m forb rest m.entry 0 ReachN.entry hchain
      (fun x hx => hforb x (List.mem_cons_of_mem _ hx)) m.exit hlast
    simpa using this

/-- **C1.** Whenever some entry-to-exit path over open edges avoiding
the forbidden cells exists, `bfs_shortest_path_solver` returns an
ordered coordinate path from entry to exit inclusive, itself over open
edges and avoiding forbidden cells, whose length is at most the length
of every such path; whenever the exit is reachable in the solver's own
sense the solver succeeds; and when the exit is unreachable (the BFS
queue empties before the exit is ever enqueued) it fails with the
unreachable error naming entry and exit. -/
theorem bfs_solver_spec (m : Maze) (forb : List Coord)
    (hbe : 0 ≤ m.entry.1 ∧ m.entry.1 < m.width ∧ 0 ≤ m.entry.2 ∧
      m.entry.2 < m.height) :
    ((∃ p, ValidPath m forb p) →
      ∃ q, bfs_shortest_path_solver m forb = Except.ok q ∧
        ValidPath m forb q ∧
        ∀ p, ValidPath m forb p → q.length ≤ p.length) ∧
    ((∃ n, ReachN m forb n m.exit) →
      ∃ q, bfs_shortest_path_solver m forb = Except.ok q) ∧
    ((¬ ∃ n, ReachN m forb n m.exit) →
      bfs_shortest_path_solver m forb = Except.error
        "Error: Exit is not reachable from the maze entry point.") := by
  obtain ⟨D', hagree, hmono, hInvF⟩ := bfs_loop_inv m forb
    (2 * (m.width.toNat * m.height.toNat) + 1) (bfs_init m) (fun _ => 0)
    (bfs_init_inv m forb hbe)
  set stF := bfs_loop m forb (2 * (m.width.toNat * m.height.toNat) + 1)
    (bfs_init m) with hstF
  have hN : 1 ≤ m.width.toNat * m.height.toNat := by
    have h1 : 1 ≤ m.width.toNat := by omega
    have h2 : 1 ≤ m.height.toNat := by omega
    calc 1 = 1 * 1 := rfl
    _ ≤ m.width.toNat * m.height.toNat := Nat.mul_le_mul h1 h2
  have hterm := bfs_loop_term m forb
    (2 * (m.width.toNat * m.height.toNat) + 1) (bfs_init m)
    (List.nodup_singleton _)
    (by
      intro c hc
      simp only [bfs_init, List.mem_singleton] at hc
      subst hc
      exact hbe)
    (fun c hc => hc)
    (by
      simp only [bfs_init, List.length_singleton]
      omega)
  have hexit_vis_of_reach : (∃ n, ReachN m forb n m.exit) →
      m.exit ∈ stF.visited := by
    rintro ⟨n, hn⟩
    rcases hterm with hqe | ⟨rest', hqe⟩
    · exact reach_visited m forb stF D' hInvF hqe n m.exit hn
    · exact hInvF.queue_sub m.exit (by
        rw [hqe]
        exact List.mem_cons_self _ _)
  have hreach_of_vis : m.exit ∈ stF.visited →
      ∃ n, ReachN m forb n m.exit :=
    fun hv => ⟨D' m.exit, hInvF.dist_sound _ hv⟩
  have hunfold : bfs_shortest_path_solver m forb =
      (match stF.tree m.exit with
       | none => Except.error
           "Error: Exit is not reachable from the maze entry point."
       | some _ =>
         match backtrace_loop stF.tree (stF.visited.length + 1)
             m.exit [] with
         | none => Except.error "Error: backtrace failed"
         | some backtrace => Except.ok backtrace.reverse) := rfl
  have hsucc : m.exit ∈ stF.visited →
      ∃ q, bfs_shortest_path_solver m forb = Except.ok q ∧
        q.head? = some m.entry ∧ q.getLast? = some m.exit ∧
        List.Chain' (fun c1 c2 => ∃ d, openMove m c1 d c2) q ∧
        (∀ x ∈ q, x = m.entry ∨ x ∉ forb) ∧
        q.length = D' m.exit + 1 := by
    intro hv
    obtain ⟨chain, hbt, hhd, hlast, hlen, hchain, hmemv, hforb⟩ :=
      backtrace_spec m forb stF D' hInvF (D' m.exit) m.exit hv rfl
        (stF.visited.length + 1)
        (by
          have := hInvF.depth_lt _ hv
          omega) []
    have hsome : (stF.tree m.exit).isSome = true := (hInvF.keys _).2 hv
    refine ⟨chain.reverse, ?_, ?_, ?_, ?_, ?_, ?_⟩
    · cases hte : stF.tree m.exit with
      | none => rw [hte] at hsome; cases hsome
      | some v =>
        rw [hunfold, hte]
        show (match backtrace_loop stF.tree (stF.visited.length + 1)
            m.exit [] with
          | none => Except.error "Error: backtrace failed"
          | some backtrace => Except.ok backtrace.reverse) =
          Except.ok chain.reverse
        rw [hbt]
        show Except.ok ([] ++ chain).reverse = Except.ok chain.reverse
        rw [List.nil_append]
    · rw [List.head?_reverse]
      exact hlast
    · rw [List.getLast?_reverse]
      exact hhd
    · exact List.chain'_reverse.mpr hchain
    · intro x hx
      rw [List.mem_reverse] at hx
      exact hforb x hx
    · rw [List.length_reverse]
      exact hlen
  refine ⟨?_, ?_, ?_⟩
  · rintro ⟨p0, hp0⟩
    have hvis := hexit_vis_of_reach ⟨p0.length - 1, validPath_reach m forb
      p0 hp0⟩
    obtain ⟨q, hok, hqh, hql, hqc, hqf, hqlen⟩ := hsucc hvis
    have hentryF : m.entry ∉ forb := by
      obtain ⟨hh0, -, -, hf0⟩ := hp0
      cases p0 with
      | nil => cases hh0
      | cons a rest =>
        have ha : a = m.entry := by injection hh0
        subst ha
        exact hf0 _ (List.mem_cons_self _ _)
    refine ⟨q, hok, ⟨hqh, hql, hqc, ?_⟩, ?_⟩
    · intro x hx
      rcases hqf x hx with hx' | hx'
      · rw [hx']
        exact hentryF
      · exact hx'
    · intro p hp
      have hre := validPath_reach m forb p hp
      have hmin := hInvF.dist_min m.exit hvis (p.length - 1) hre
      have hplen : 1 ≤ p.length := by
        obtain ⟨hh, -⟩ := hp
        cases p with
        | nil => cases hh
        | cons a rest => simp
      omega
  · intro hre
    obtain ⟨q, hok, -⟩ := hsucc (hexit_vis_of_reach hre)
    exact ⟨q, hok⟩
  · intro hnre
    have hnv : m.exit ∉ stF.visited := fun hv => hnre (hreach_of_vis hv)
    have hte : stF.tree m.exit = none := by
      by_contra hne
      exact hnv ((hInvF.keys _).1 (Option.ne_none_iff_isSome.mp hne))
    rw [hunfold, hte]

/-- **C1 (witness).** On a concrete 2×1 maze whose single interior wall
is open, the entry is in bounds and the solver returns a valid
entry-to-exit path of minimal length. -/
theorem bfs_solver_spec_witness :
    (let mW : Maze := { width := 2, height := 1, entry := (0, 0),
                        exit := (1, 0),
                        grid := fun c =>
                          if c = ((0 : Int), (0 : Int)) then 13
                          else if c = ((1 : Int), (0 : Int)) then 7
                          else 15 }
     (0 ≤ mW.entry.1 ∧ mW.entry.1 < mW.width ∧ 0 ≤ mW.entry.2 ∧
       mW.entry.2 < mW.height) ∧
     ∃ q, bfs_shortest_path_solver mW [] = Except.ok q ∧
       ValidPath mW [] q ∧
       ∀ p, ValidPath mW [] p → q.length ≤ p.length) := by
  exact ⟨by decide,
    (bfs_solver_spec _ [] (by decide)).1
      ⟨[((0 : Int), (0 : Int)), ((1 : Int), (0 : Int))], rfl, rfl,
        List.chain'_cons.mpr ⟨⟨Dir.E, by decide⟩, List.chain'_singleton _⟩,
        fun c _ => List.not_mem_nil c⟩⟩

end AMazeIng
